import Mathlib

/-!
Verification of the pixano annotation storage & codec layer.

This file shallowly embeds the parts of the repository that the checked
claims are about:

* `pixano/core/bbox.py` — the `BBox` value type and its conversions;
* `pixano/core/arrow_types/__init__.py` — the recursive field converter
  `convert_field`;
* `pixano/api/items.py` — the provenance rule of `load_item_details` and the
  update transaction `save_item_annotations`;
* `pixano/data/dataset/dataset_stat.py` — the stats side-file upsert.

Python floats are modelled as rationals (exact arithmetic); pyarrow tables
are modelled as parallel columns; the columnar sort written with Python's
stable `sorted(key=natural_key)` is modelled with `List.insertionSort`
(also stable).  Helpers of the repository that are not part of the provided
sources (`pixano/utils`: `natural_key`, `mask_to_bbox`, the RLE codec; the
`ObjectAnnotation` class) are modelled from the specification and are
marked as such in their doc comments.
-/

/-! ### Natural key order

Modelled from the spec: `natural_key` (from `pixano/utils`, not among the
provided sources) splits a string into maximal digit runs and non-digit
runs; digit runs compare numerically, so `"item2" < "item10"`. -/

/-- One token of a natural sort key: a digit run (as its numeric value) or a
non-digit character run. -/
inductive NatTok where
  | num (n : ℕ)
  | str (cs : List Char)
deriving DecidableEq

/-- Accumulate one character into a reversed token list. -/
def tokStep (acc : List NatTok) (c : Char) : List NatTok :=
  if c.isDigit then
    match acc with
    | NatTok.num n :: rest => NatTok.num (n * 10 + (c.toNat - 48)) :: rest
    | _ => NatTok.num (c.toNat - 48) :: acc
  else
    match acc with
    | NatTok.str cs :: rest => NatTok.str (c :: cs) :: rest
    | _ => NatTok.str [c] :: acc

/-- Modelled from the spec: the natural sort key of a string (digit runs as
numbers, other runs as character lists). -/
def natural_key (s : String) : List NatTok :=
  ((s.data.foldl tokStep []).map (fun t =>
    match t with
    | NatTok.str cs => NatTok.str cs.reverse
    | t => t)).reverse

/-- Three-way comparison of naturals. -/
def ncmp (m n : ℕ) : Ordering :=
  if m < n then Ordering.lt else if n < m then Ordering.gt else Ordering.eq

/-- Three-way comparison of characters by code point. -/
def charCmp (a b : Char) : Ordering := ncmp a.toNat b.toNat

/-- Lexicographic comparison of lists from an element comparator. -/
def lexCmp (f : α → α → Ordering) : List α → List α → Ordering
  | [], [] => Ordering.eq
  | [], _ :: _ => Ordering.lt
  | _ :: _, [] => Ordering.gt
  | a :: as, b :: bs =>
    match f a b with
    | Ordering.eq => lexCmp f as bs
    | o => o

/-- Comparison of key tokens: numbers compare numerically, character runs
lexicographically, and (by convention) every number sorts before every
character run. -/
def tokCmp : NatTok → NatTok → Ordering
  | NatTok.num m, NatTok.num n => ncmp m n
  | NatTok.num _, NatTok.str _ => Ordering.lt
  | NatTok.str _, NatTok.num _ => Ordering.gt
  | NatTok.str a, NatTok.str b => lexCmp charCmp a b

/-- Natural-key comparison of two strings. -/
def keyCmp (a b : String) : Ordering :=
  lexCmp tokCmp (natural_key a) (natural_key b)

/-- The total preorder used by every id sort: natural-key less-or-equal. -/
def natLe (a b : String) : Prop := keyCmp a b ≠ Ordering.gt

instance : DecidableRel natLe := fun a b => by
  unfold natLe; infer_instance

/-- The same preorder lifted to pairs by their first component, used to sort
a column zipped with the id column. -/
def pairLe {β : Type} (p q : String × β) : Prop := natLe p.1 q.1

instance {β : Type} : DecidableRel (pairLe (β := β)) := fun p q => by
  unfold pairLe; infer_instance

/-! ### Bounding boxes (`pixano/core/bbox.py`)

Coordinates are Python floats, modelled here as rationals. -/

/-- Bounding box value type, mirroring class `BBox`: coordinates in the
given format, an `is_normalized` flag, and an optional confidence. -/
structure BBox where
  coords : List ℚ
  format : String
  is_normalized : Bool
  confidence : Option ℚ
deriving DecidableEq

/-- Modelled from the spec: `xywh_to_xyxy` (from `pixano/utils`, not among
the provided sources) maps `[x, y, w, h]` to `[x, y, x+w, y+h]`. -/
def xywh_to_xyxy : List ℚ → List ℚ
  | [x, y, w, h] => [x, y, x + w, y + h]
  | c => c

/-- Modelled from the spec: `xyxy_to_xywh` (from `pixano/utils`, not among
the provided sources) maps `[x1, y1, x2, y2]` to `[x1, y1, x2-x1, y2-y1]`. -/
def xyxy_to_xywh : List ℚ → List ℚ
  | [x1, y1, x2, y2] => [x1, y1, x2 - x1, y2 - y1]
  | c => c

/-- Property `BBox.xyxy_coords`. -/
def BBox.xyxy_coords (b : BBox) : List ℚ :=
  if b.format = "xyxy" then b.coords else xywh_to_xyxy b.coords

/-- Property `BBox.xywh_coords`. -/
def BBox.xywh_coords (b : BBox) : List ℚ :=
  if b.format = "xywh" then b.coords else xyxy_to_xywh b.coords

/-- Method `BBox.to_xyxy`: note that the constructor call passes only
coordinates, format and `is_normalized`, so `confidence` takes its default
`None`. -/
def BBox.to_xyxy (b : BBox) : BBox :=
  { coords := b.xyxy_coords, format := "xyxy",
    is_normalized := b.is_normalized, confidence := none }

/-- Method `BBox.to_xywh`: same constructor call shape as `to_xyxy`. -/
def BBox.to_xywh (b : BBox) : BBox :=
  { coords := b.xywh_coords, format := "xywh",
    is_normalized := b.is_normalized, confidence := none }

/-- Static method `BBox.from_xywh`: builds `BBox(xywh, "xywh")`, so
`is_normalized` takes its default `True` and `confidence` its default
`None`. -/
def BBox.from_xywh (xywh : List ℚ) : BBox :=
  { coords := xywh, format := "xywh", is_normalized := true,
    confidence := none }

/-! ### Masks

The mask codec (`CompressedRLE`, from `pixano/core/arrow_types`, not among
the provided sources) is modelled from the spec: both the compressed and
the URLE form carry the `(height, width)` size and a run-length list
(alternating runs starting with background); their interconversion is
exact and format-preserving. -/

/-- URLE interchange mask: size and alternating run lengths. -/
structure URLE where
  size : ℕ × ℕ
  counts : List ℕ
deriving DecidableEq

/-- Compressed on-disk mask: same size and run content. -/
structure CompressedRLE where
  size : ℕ × ℕ
  counts : List ℕ
deriving DecidableEq

/-- Modelled from the spec: `CompressedRLE.from_urle` converts the URLE
interchange form to the compressed form exactly (same size, same runs). -/
def CompressedRLE.from_urle (u : URLE) : CompressedRLE :=
  { size := u.size, counts := u.counts }

/-- Expand alternating run lengths into a flat pixel list; the first run is
background (`false`). -/
def expandRuns : List ℕ → Bool → List Bool
  | [], _ => []
  | n :: rest, b => List.replicate n b ++ expandRuns rest (!b)

/-- Split a flat row-major pixel list into `h` rows of width `w`. -/
def splitRows (w : ℕ) : ℕ → List Bool → List (List Bool)
  | 0, _ => []
  | h + 1, flat => flat.take w :: splitRows w h (flat.drop w)

/-- Modelled from the spec: `CompressedRLE.to_mask` decodes the run lengths
into a dense row-major binary mask of the stored size. -/
def CompressedRLE.to_mask (c : CompressedRLE) : List (List Bool) :=
  splitRows c.size.2 c.size.1 (expandRuns c.counts false)

/-- Foreground pixels of one mask row, as `(row, column)` pairs, starting
at column index `c`. -/
def rowFg (r : ℕ) : ℕ → List Bool → List (ℕ × ℕ)
  | _, [] => []
  | c, b :: rest => (if b then [(r, c)] else []) ++ rowFg r (c + 1) rest

/-- Foreground pixels of the rows of a mask, starting at row index `r`. -/
def fgAux : ℕ → List (List Bool) → List (ℕ × ℕ)
  | _, [] => []
  | r, row :: rest => rowFg r 0 row ++ fgAux (r + 1) rest

/-- All foreground pixels of a mask, as `(row, column)` pairs. -/
def fgPixels (m : List (List Bool)) : List (ℕ × ℕ) := fgAux 0 m

/-- Whether a mask has at least one foreground pixel. -/
def hasFg (m : List (List Bool)) : Bool := !(fgPixels m).isEmpty

/-- Minimum of a list of naturals (0 on the empty list). -/
def listMin : List ℕ → ℕ
  | [] => 0
  | x :: xs => xs.foldl Nat.min x

/-- Maximum of a list of naturals (0 on the empty list). -/
def listMax : List ℕ → ℕ
  | [] => 0
  | x :: xs => xs.foldl Nat.max x

/-- Modelled from the spec: `mask_to_bbox` (from `pixano/utils`, not among
the provided sources) returns the tight axis-aligned bounding rectangle of
the foreground pixels, in pixel `xywh` coordinates.  Behaviour on an empty
mask is an undocumented precondition; the model returns `[0, 0, 0, 0]`
there. -/
def mask_to_bbox (m : List (List Bool)) : List ℚ :=
  match fgPixels m with
  | [] => [0, 0, 0, 0]
  | pts =>
    let rs := pts.map Prod.fst
    let cs := pts.map Prod.snd
    [(listMin cs : ℚ), (listMin rs : ℚ),
      (listMax cs : ℚ) - (listMin cs : ℚ) + 1,
      (listMax rs : ℚ) - (listMin rs : ℚ) + 1]

/-- Static method `BBox.from_mask`: `BBox.from_xywh(mask_to_bbox(mask))`. -/
def BBox.from_mask (m : List (List Bool)) : BBox :=
  BBox.from_xywh (mask_to_bbox m)

/-! ### Object annotations

Modelled from the spec (class `ObjectAnnotation` is from
`pixano/core/arrow_types`, not among the provided sources): the annotation
aggregate with optional bbox, mask, provenance sources, pose and category
fields.  The `mask` field holds either nothing, a URLE interchange mask
(as received from the UI), or a compressed mask (as stored). -/

/-- Pose with rotation and translation vectors. -/
structure Pose where
  cam_R_m2c : List ℚ
  cam_t_m2c : List ℚ
deriving DecidableEq

/-- Value held by the `mask` field of an annotation. -/
inductive MaskVal where
  | none
  | urle (u : URLE)
  | rle (c : CompressedRLE)
deriving DecidableEq

/-- Annotation aggregate. -/
structure ObjectAnnotation where
  id : String
  view_id : String
  bbox : Option BBox
  bbox_source : Option String
  bbox_confidence : Option ℚ
  mask : MaskVal
  mask_source : Option String
  is_group_of : Bool
  is_difficult : Bool
  is_truncated : Bool
  area : Option ℚ
  pose : Option Pose
  category_id : Option ℤ
  category_name : Option String
  identity : Option String
deriving DecidableEq

/-- The provenance rule of `load_item_details` (items.py line 211):
`obj.mask_source or obj.bbox_source or "Ground truth"`, where Python's
`or` treats both `None` and the empty string as falsy. -/
def pyOrStr (x : Option String) (d : String) : String :=
  match x with
  | some s => if s = "" then d else s
  | none => d

/-- Displayed source of an annotation, as computed by `load_item_details`. -/
def displayedSource (o : ObjectAnnotation) : String :=
  pyOrStr o.mask_source (pyOrStr o.bbox_source "Ground truth")

/-- The provenance rule as the claim states it: `mask_source` whenever
present, else `bbox_source` whenever present, else the ground-truth
marker.  Stated from the claim's words, to be compared with
`displayedSource`. -/
def claimedSource (o : ObjectAnnotation) : String :=
  match o.mask_source with
  | some s => s
  | none =>
    match o.bbox_source with
    | some s => s
    | none => "Ground truth"

/-- The provenance rule as the code actually behaves: a source is used only
when present and non-empty. -/
def amendedSource (o : ObjectAnnotation) : String :=
  match o.mask_source with
  | some s =>
    if s = "" then
      match o.bbox_source with
      | some t => if t = "" then "Ground truth" else t
      | none => "Ground truth"
    else s
  | none =>
    match o.bbox_source with
    | some t => if t = "" then "Ground truth" else t
    | none => "Ground truth"

/-! ### The update transaction (`save_item_annotations`, items.py)

A shard table is modelled as parallel columns: the `id` column, the
`objects` annotation-list column, and any other columns with cells of an
arbitrary type `α`.  The filesystem is an association list from shard
filename to table, and the transaction additionally returns the list of
file write events it performed.  Tables are modelled in the current
format: the legacy-schema branches of the source (exact type-string
comparison) do not fire on current-format shards and are identity there,
so they are not modelled. -/

/-- A shard table: parallel columns. -/
structure Table (α : Type) where
  ids : List String
  objects : List (List ObjectAnnotation)
  extras : List (String × List α)
deriving DecidableEq

/-- Well-formedness: every column has the same number of rows. -/
def Table.wf {α : Type} (t : Table α) : Prop :=
  t.objects.length = t.ids.length ∧
    ∀ c ∈ t.extras, c.2.length = t.ids.length

/-- A file event emitted by the transaction.  The source only ever calls
`pq.write_table(table, file)`; the `rename` constructor exists so that the
atomic temp-file-plus-rename discipline asserted by the spec is
expressible. -/
inductive FileEvent (α : Type) where
  | write (path : String) (tbl : Table α)
  | rename (src : String) (dst : String)

/-- The annotation pre-pass of `save_item_annotations` (items.py lines
265-272): replace the incoming URLE mask by its compressed form and fill
an all-zero bbox from the mask's bounding rectangle.  An absent mask or
absent bbox raises `AttributeError` in Python, modelled as `none`.  (An
already-compressed mask would have its dict re-read as URLE; in this
model that is the identity conversion.) -/
def normalizeAnn (a : ObjectAnnotation) : Option ObjectAnnotation :=
  match a.mask, a.bbox with
  | MaskVal.urle u, some b =>
    let m := CompressedRLE.from_urle u
    some { a with
      mask := MaskVal.rle m,
      bbox := some (if b.coords = [(0 : ℚ), 0, 0, 0]
        then BBox.from_mask m.to_mask else b) }
  | MaskVal.rle c, some b =>
    let m := CompressedRLE.from_urle { size := c.size, counts := c.counts }
    some { a with
      mask := MaskVal.rle m,
      bbox := some (if b.coords = [(0 : ℚ), 0, 0, 0]
        then BBox.from_mask m.to_mask else b) }
  | _, _ => none

/-- Sequential fail-fast map of the pre-pass over the caller's list,
mirroring the Python `for` loop (an exception aborts the whole call). -/
def mapOpt (f : α → Option β) : List α → Option (List β)
  | [] => some []
  | a :: l =>
    match f a with
    | none => none
    | some b =>
      match mapOpt f l with
      | none => none
      | some l' => some (b :: l')

/-- Drop the rows of a column whose id equals `item_id`, mirroring
`table.filter(~ pc.field("id").isin([item_id]))` applied columnwise. -/
def dropItem {β : Type} (item_id : String) (ids : List String)
    (col : List β) : List β :=
  ((ids.zip col).filter (fun p => p.1 != item_id)).map Prod.snd

/-- Lines 308-314: remove the matched rows, then append the first matched
row back with its `objects` column replaced by the new annotations. -/
def updatedUnsorted {α : Type} [Inhabited α] (t : Table α)
    (item_id : String) (anns : List ObjectAnnotation) : Table α :=
  let i := t.ids.findIdx (fun s => s == item_id)
  { ids := t.ids.filter (fun s => s != item_id) ++ [item_id],
    objects := dropItem item_id t.ids t.objects ++ [anns],
    extras := t.extras.map (fun c =>
      (c.1, dropItem item_id t.ids c.2 ++ [c.2.getD i default])) }

/-- Lines 316-327: re-sort every non-id column by zipping it with the id
column and sorting by the natural key of the id, then sort the id column
itself; Python's `sorted` is stable, modelled by `List.insertionSort`. -/
def sortTable {α : Type} (t : Table α) : Table α :=
  { ids := List.insertionSort natLe t.ids,
    objects :=
      (List.insertionSort pairLe (t.ids.zip t.objects)).map Prod.snd,
    extras := t.extras.map (fun c =>
      (c.1, (List.insertionSort pairLe (t.ids.zip c.2)).map Prod.snd)) }

/-- The full in-memory rewrite of a found shard. -/
def rewriteTable {α : Type} [Inhabited α] (t : Table α) (item_id : String)
    (anns : List ObjectAnnotation) : Table α :=
  sortTable (updatedUnsorted t item_id anns)

/-- Association lookup of a shard file by name. -/
def lookupFS {β : Type} (k : String) : List (String × β) → Option β
  | [] => none
  | (k', v) :: rest => if k' = k then some v else lookupFS k rest

/-- Replace the table stored under filename `k`. -/
def updateFS {β : Type} (fs : List (String × β)) (k : String) (v : β) :
    List (String × β) :=
  fs.map (fun e => if e.1 = k then (k, v) else e)

/-- One iteration of the per-file loop (lines 278-378): read the shard, and
when the id is present rewrite it in memory and write the new table
directly over the shard file with `pq.write_table`. -/
def saveStep {α : Type} [Inhabited α] (item_id : String)
    (anns : List ObjectAnnotation)
    (acc : List (String × Table α) × List (FileEvent α)) (file : String) :
    List (String × Table α) × List (FileEvent α) :=
  match lookupFS file acc.1 with
  | none => acc
  | some t =>
    if item_id ∈ t.ids then
      let t2 := rewriteTable t item_id anns
      (updateFS acc.1 file t2, acc.2 ++ [FileEvent.write file t2])
    else acc

/-- The update transaction `save_item_annotations`: the pre-pass mutates
the caller's annotations before any file access, then the shard files are
visited in natural-key order of filename.  The result carries the mutated
annotation list, the final filesystem, and the write events, or `none`
when the pre-pass raises. -/
def save_item_annotations {α : Type} [Inhabited α]
    (fs : List (String × Table α)) (item_id : String)
    (anns : List ObjectAnnotation) :
    Option (List ObjectAnnotation × List (String × Table α) ×
      List (FileEvent α)) :=
  match mapOpt normalizeAnn anns with
  | none => none
  | some anns2 =>
    let files := List.insertionSort natLe (fs.map Prod.fst)
    let res := files.foldl (saveStep item_id anns2) (fs, [])
    some (anns2, res.1, res.2)

/-- A trace obeys the atomic-rewrite discipline when no write event ever
targets a shard file directly (shard files would change only via
rename). -/
def isShardWrite {α : Type} (shards : List String) : FileEvent α → Prop
  | FileEvent.write p _ => p ∈ shards
  | FileEvent.rename _ _ => False

instance {α : Type} (shards : List String) (e : FileEvent α) :
    Decidable (isShardWrite shards e) := by
  cases e with
  | write p t => exact inferInstanceAs (Decidable (p ∈ shards))
  | rename s d => exact inferInstanceAs (Decidable False)

/-- The temp-plus-rename discipline the spec asserts for every rewrite. -/
def writesOnlyTemp {α : Type} (evs : List (FileEvent α))
    (shards : List String) : Prop :=
  ∀ e ∈ evs, ¬ isShardWrite shards e

/-! ### The recursive field converter (`convert_field`, arrow_types)

Target types are modelled as a mutual inductive so that the converter is
plain structural recursion.  Runtime values mirror the Python values the
converter receives: `None`, integers, strings, lists and dicts.  The
extension-type branch of the source (`isinstance(field_type,
pa.ExtensionType)`) is not modelled: no claim depends on it. -/

mutual
/-- A declared target type: primitive, list, or struct of named fields. -/
inductive PaType where
  | int64 : PaType
  | utf8 : PaType
  | listT (t : PaType) : PaType
  | structT (fields : PaFields) : PaType
/-- The named fields of a struct type. -/
inductive PaFields where
  | nil : PaFields
  | cons (name : String) (t : PaType) (rest : PaFields) : PaFields
end

/-- A Python runtime value as seen by the converter. -/
inductive PyVal where
  | vnone : PyVal
  | vint (n : ℤ) : PyVal
  | vstr (s : String) : PyVal
  | vlist (xs : List PyVal) : PyVal
  | vdict (fs : List (String × PyVal)) : PyVal

/-- Conversion errors: a missing struct field (pyarrow `KeyError`) or a
value whose shape disagrees with the declared type (`ArrowInvalid`). -/
inductive ConvErr where
  | keyError (name : String) : ConvErr
  | typeMismatch : ConvErr
deriving DecidableEq

/-- Whether a value is Python `None`. -/
def isNoneV : PyVal → Bool
  | PyVal.vnone => true
  | _ => false

/-- Whether `pa.array(field_data)` infers a `NullArray` (every value is
`None`; pyarrow also infers null for the empty list). -/
def allNone (vs : List PyVal) : Bool := vs.all isNoneV

/-- The keys of a dict value (empty for non-dicts). -/
def dictKeys : PyVal → List String
  | PyVal.vdict fs => fs.map Prod.fst
  | _ => []

/-- Append the keys `ks` to `acc`, keeping first appearances only. -/
def addKeys (acc : List String) (ks : List String) : List String :=
  ks.foldl (fun a k => if k ∈ a then a else a ++ [k]) acc

/-- The struct fields `pa.array` infers for a batch of dicts: the union of
their keys in order of first appearance. -/
def inferKeys (vs : List PyVal) : List String :=
  vs.foldl (fun a v => addKeys a (dictKeys v)) []

/-- First value stored under a key in a dict. -/
def lookupVal (n : String) : List (String × PyVal) → Option PyVal
  | [] => none
  | (k, v) :: rest => if k = n then some v else lookupVal n rest

/-- The projected column `native_arr.field(n)`: per record, the value under
key `n`, null when the record lacks the key or is null. -/
def projectField (n : String) (vs : List PyVal) : List PyVal :=
  vs.map (fun v =>
    match v with
    | PyVal.vdict fs => (lookupVal n fs).getD PyVal.vnone
    | _ => PyVal.vnone)

/-- Length of a list value (0 for nulls, as in the offsets of pyarrow's
inferred list array). -/
def listLen : PyVal → ℕ
  | PyVal.vlist xs => xs.length
  | _ => 0

/-- Elements of a list value (empty for nulls). -/
def listElems : PyVal → List PyVal
  | PyVal.vlist xs => xs
  | _ => []

/-- Rebuild list rows from per-row lengths and the converted flat values,
as `pa.ListArray.from_arrays(offsets, values)` does; a null input row has
equal offsets and therefore comes back as an empty list, not null. -/
def rebuildLists : List ℕ → List PyVal → List PyVal
  | [], _ => []
  | n :: rest, flat =>
    PyVal.vlist (flat.take n) :: rebuildLists rest (flat.drop n)

/-- Typed conversion of one value at `int64`, as `pa.array(data, int64)`:
null passes through, integers pass through, anything else fails. -/
def convPrimInt : PyVal → Except ConvErr PyVal
  | PyVal.vnone => Except.ok PyVal.vnone
  | PyVal.vint n => Except.ok (PyVal.vint n)
  | _ => Except.error ConvErr.typeMismatch

/-- Typed conversion of one value at `utf8`. -/
def convPrimStr : PyVal → Except ConvErr PyVal
  | PyVal.vnone => Except.ok PyVal.vnone
  | PyVal.vstr s => Except.ok (PyVal.vstr s)
  | _ => Except.error ConvErr.typeMismatch

/-- Fail-fast map of a conversion over a column. -/
def mapExcept (f : PyVal → Except ConvErr PyVal) :
    List PyVal → Except ConvErr (List PyVal)
  | [] => Except.ok []
  | v :: vs =>
    match f v with
    | Except.error e => Except.error e
    | Except.ok w =>
      match mapExcept f vs with
      | Except.error e => Except.error e
      | Except.ok ws => Except.ok (w :: ws)

/-- Reassembly of converted field columns into struct rows, as
`pa.StructArray.from_arrays(arrays, fields)`: row `i` holds each column's
`i`-th entry; no row-level validity is supplied, so no row is null. -/
def structRows (cols : List (String × List PyVal)) (len : ℕ) :
    List PyVal :=
  (List.range len).map (fun i =>
    PyVal.vdict (cols.map (fun c => (c.1, c.2.getD i PyVal.vnone))))

mutual
/-- The recursive field converter `convert_field` (arrow_types lines
64-113): dispatch on the declared type; lists flatten, convert the values
and rebuild from offsets; structs convert each declared field's projected
column and reassemble by name; primitives convert directly.  A batch that
pyarrow infers as all-null is returned as typed nulls. -/
def convert_field : PaType → List PyVal → Except ConvErr (List PyVal)
  | PaType.int64, vs => mapExcept convPrimInt vs
  | PaType.utf8, vs => mapExcept convPrimStr vs
  | PaType.listT t, vs =>
    if allNone vs then Except.ok (vs.map (fun _ => PyVal.vnone))
    else
      match convert_field t (vs.flatMap listElems) with
      | Except.error e => Except.error e
      | Except.ok conv => Except.ok (rebuildLists (vs.map listLen) conv)
  | PaType.structT fields, vs =>
    if allNone vs then Except.ok (vs.map (fun _ => PyVal.vnone))
    else
      match convertFields fields (inferKeys vs) vs with
      | Except.error e => Except.error e
      | Except.ok cols => Except.ok (structRows cols vs.length)
/-- The per-field loop of the struct branch: `native_arr.field(name)`
raises `KeyError` when the inferred keys do not contain a declared field
name; otherwise the projected column is converted recursively. -/
def convertFields : PaFields → List String → List PyVal →
    Except ConvErr (List (String × List PyVal))
  | PaFields.nil, _, _ => Except.ok []
  | PaFields.cons n t rest, keys, vs =>
    if n ∈ keys then
      match convert_field t (projectField n vs) with
      | Except.error e => Except.error e
      | Except.ok c =>
        match convertFields rest keys vs with
        | Except.error e => Except.error e
        | Except.ok cs => Except.ok ((n, c) :: cs)
    else Except.error (ConvErr.keyError n)
end

/-- A struct type whose fields are all `int64`, used to state the struct
branch's behaviour. -/
def intFields : List String → PaFields
  | [] => PaFields.nil
  | n :: rest => PaFields.cons n PaType.int64 (intFields rest)

/-- Encode a record of integers as the dict value the converter receives. -/
def intRecord (r : List (String × ℤ)) : PyVal :=
  PyVal.vdict (r.map (fun p => (p.1, PyVal.vint p.2)))

/-- First integer stored under a key in a plain record. -/
def lookupZ (n : String) : List (String × ℤ) → Option ℤ
  | [] => none
  | (k, z) :: rest => if k = n then some z else lookupZ n rest

/-- The cell the converter should produce for field `n` of record `r`:
the stored integer, or null when the record lacks the field. -/
def intCell (n : String) (r : List (String × ℤ)) : PyVal :=
  match lookupZ n r with
  | some z => PyVal.vint z
  | none => PyVal.vnone

/-! ### The stats side-file (`DatasetStat.to_json`, dataset_stat.py)

A stats record as stored in the JSON array; `range := none` models an
absent `"range"` key.  The histogram payload and range payload types are
arbitrary. -/

/-- One record of the stats side-file. -/
structure StatRec (α β : Type) where
  name : String
  type : String
  histogram : α
  range : Option β
deriving DecidableEq

/-- The upsert performed by `DatasetStat.to_json` (lines 59-69): drop every
record with the same name, then append a record built from only `name`,
`type` and `histogram` — the written record never carries `range`. -/
def statUpsert {α β : Type} (self : StatRec α β)
    (file : List (StatRec α β)) : List (StatRec α β) :=
  (file.filter (fun r => r.name != self.name)) ++
    [{ name := self.name, type := self.type, histogram := self.histogram,
       range := none }]

/-- Whether an annotation carries a URLE mask that decodes to at least one
foreground pixel. -/
def annFg (a : ObjectAnnotation) : Bool :=
  match a.mask with
  | MaskVal.urle u => hasFg ((CompressedRLE.from_urle u).to_mask)
  | _ => false

/-! ### Concrete instances used by counterexamples and witnesses -/

/-- An incoming annotation with a URLE mask of one foreground pixel and an
all-zero bbox. -/
def wMaskAnn : ObjectAnnotation :=
  ObjectAnnotation.mk "a1" "image"
    (some (BBox.mk [0, 0, 0, 0] "xywh" false none))
    none none (MaskVal.urle (URLE.mk (1, 1) [0, 1])) none
    false false false none none none none none

/-- A two-row shard table. -/
def wTableA : Table ℤ :=
  Table.mk ["img_1", "img_2"] [[], []] [("width", [640, 640])]

/-- A one-row shard table holding `img_7`. -/
def wTableB : Table ℤ :=
  Table.mk ["img_7"] [[]] [("width", [640])]

/-- A two-shard filesystem whose second shard holds `img_7`. -/
def wFS : List (String × Table ℤ) :=
  [("shard_0.parquet", wTableA), ("shard_1.parquet", wTableB)]

/-- An unsorted two-row shard table holding `img_2`. -/
def wTableC : Table ℤ :=
  Table.mk ["img_10", "img_2"] [[], []] [("width", [640, 480])]

/-- A bounding box in `xywh` format carrying a confidence value. -/
def cexBBox : BBox := BBox.mk [0, 0, 1, 1] "xywh" true (some 1)

/-- An annotation whose `mask_source` is present but empty while
`bbox_source` is present and non-empty. -/
def cexAnnSource : ObjectAnnotation :=
  ObjectAnnotation.mk "o1" "image" none (some "model") none MaskVal.none
    (some "") false false false none none none none none

/-- A stat record carrying a `range`. -/
def cexStat : StatRec ℕ ℕ := StatRec.mk "hist" "numerical" 1 (some 5)

/-- The event trace of a concrete successful run of the update
transaction. -/
def cexTrace : List (FileEvent ℤ) :=
  ((save_item_annotations wFS "img_7" []).getD ([], [], [])).2.2

/-- Field names of the struct used to exercise the converter. -/
def wNs : List String := ["a", "b"]

/-- Input records for the converter: each lacks one of the two declared
fields. -/
def wRows : List (List (String × ℤ)) := [[("a", 1)], [("b", 2)]]

instance {α : Type} (t : Table α) : Decidable t.wf := by
  unfold Table.wf
  infer_instance

instance {α : Type} (evs : List (FileEvent α)) (shards : List String) :
    Decidable (writesOnlyTemp evs shards) := by
  unfold writesOnlyTemp
  exact List.decidableBAll _ _

/-! ### Comparator and order lemmas -/

theorem ncmp_refl (a : ℕ) : ncmp a a = Ordering.eq := by
  simp [ncmp]

theorem ncmp_swap (a b : ℕ) : ncmp a b = (ncmp b a).swap := by
  unfold ncmp
  rcases Nat.lt_trichotomy a b with h | h | h
  · rw [if_pos h, if_neg (Nat.lt_asymm h), if_pos h]; rfl
  · subst h; simp [Ordering.swap]
  · rw [if_neg (Nat.lt_asymm h), if_pos h, if_pos h]; rfl

theorem ncmp_lt_trans {a b c : ℕ} (h₁ : ncmp a b = Ordering.lt)
    (h₂ : ncmp b c = Ordering.lt) : ncmp a c = Ordering.lt := by
  unfold ncmp at *
  have hab : a < b := by
    by_cases h : a < b
    · exact h
    · rw [if_neg h] at h₁; split at h₁ <;> simp_all
  have hbc : b < c := by
    by_cases h : b < c
    · exact h
    · rw [if_neg h] at h₂; split at h₂ <;> simp_all
  rw [if_pos (Nat.lt_trans hab hbc)]

theorem ncmp_eq_congr {a b c : ℕ} (h : ncmp a b = Ordering.eq) :
    ncmp a c = ncmp b c := by
  have : a = b := by
    unfold ncmp at h
    by_cases h₁ : a < b
    · simp [h₁] at h
    · by_cases h₂ : b < a
      · simp [h₁, h₂] at h
      · omega
  subst this; rfl

theorem charCmp_refl (a : Char) : charCmp a a = Ordering.eq := ncmp_refl _

theorem charCmp_swap (a b : Char) : charCmp a b = (charCmp b a).swap :=
  ncmp_swap _ _

theorem charCmp_lt_trans {a b c : Char} (h₁ : charCmp a b = Ordering.lt)
    (h₂ : charCmp b c = Ordering.lt) : charCmp a c = Ordering.lt :=
  ncmp_lt_trans h₁ h₂

theorem charCmp_eq_congr {a b c : Char} (h : charCmp a b = Ordering.eq) :
    charCmp a c = charCmp b c := ncmp_eq_congr h

theorem lexCmp_refl (f : α → α → Ordering) (hf : ∀ a, f a a = Ordering.eq) :
    ∀ l, lexCmp f l l = Ordering.eq := by
  intro l
  induction l with
  | nil => rfl
  | cons a as ih => simp [lexCmp, hf a, ih]

theorem lexCmp_swap (f : α → α → Ordering)
    (hf : ∀ a b, f a b = (f b a).swap) :
    ∀ l₁ l₂, lexCmp f l₁ l₂ = (lexCmp f l₂ l₁).swap := by
  intro l₁
  induction l₁ with
  | nil => intro l₂; cases l₂ <;> rfl
  | cons a as ih =>
    intro l₂
    cases l₂ with
    | nil => rfl
    | cons b bs =>
      simp only [lexCmp]
      rw [hf a b]
      cases f b a <;> simp [Ordering.swap, ih bs]

theorem lexCmp_eq_congr (f : α → α → Ordering)
    (heq : ∀ {a b c}, f a b = Ordering.eq → f a c = f b c) :
    ∀ {l₁ l₂} (l₃ : List α), lexCmp f l₁ l₂ = Ordering.eq →
      lexCmp f l₁ l₃ = lexCmp f l₂ l₃ := by
  intro l₁
  induction l₁ with
  | nil =>
    intro l₂ l₃ h
    cases l₂ with
    | nil => rfl
    | cons b bs => simp [lexCmp] at h
  | cons a as ih =>
    intro l₂ l₃ h
    cases l₂ with
    | nil => simp [lexCmp] at h
    | cons b bs =>
      simp only [lexCmp] at h
      cases hab : f a b with
      | lt => rw [hab] at h; simp at h
      | gt => rw [hab] at h; simp at h
      | eq =>
        rw [hab] at h
        cases l₃ with
        | nil => rfl
        | cons c cs =>
          simp only [lexCmp]
          rw [heq hab]
          cases f b c with
          | eq => exact ih cs h
          | lt => rfl
          | gt => rfl

theorem lexCmp_lt_trans (f : α → α → Ordering)
    (hswap : ∀ a b, f a b = (f b a).swap)
    (hlt : ∀ {a b c}, f a b = Ordering.lt → f b c = Ordering.lt →
      f a c = Ordering.lt)
    (heq : ∀ {a b c}, f a b = Ordering.eq → f a c = f b c) :
    ∀ {l₁ l₂ l₃}, lexCmp f l₁ l₂ = Ordering.lt →
      lexCmp f l₂ l₃ = Ordering.lt → lexCmp f l₁ l₃ = Ordering.lt := by
  have hswap_eq : ∀ {a b : α}, f a b = Ordering.eq → f b a = Ordering.eq := by
    intro a b h
    have := hswap b a
    rw [h] at this
    exact this
  have heqR : ∀ {a b c : α}, f b c = Ordering.eq → f a c = f a b := by
    intro a b c h
    have h1 : f c b = Ordering.eq := hswap_eq h
    have h2 : f c a = f b a := heq h1
    rw [hswap a c, h2, ← hswap a b]
  intro l₁
  induction l₁ with
  | nil =>
    intro l₂ l₃ h₁ h₂
    cases l₂ with
    | nil => exact h₂
    | cons b bs =>
      cases l₃ with
      | nil => simp [lexCmp] at h₂
      | cons c cs => rfl
  | cons a as ih =>
    intro l₂ l₃ h₁ h₂
    cases l₂ with
    | nil => simp [lexCmp] at h₁
    | cons b bs =>
      cases l₃ with
      | nil => simp [lexCmp] at h₂
      | cons c cs =>
        simp only [lexCmp] at h₁ h₂ ⊢
        cases hab : f a b with
        | gt => rw [hab] at h₁; simp at h₁
        | lt =>
          cases hbc : f b c with
          | lt => rw [hlt hab hbc]
          | eq => rw [heqR hbc, hab]
          | gt => rw [hbc] at h₂; simp at h₂
        | eq =>
          rw [hab] at h₁
          rw [heq hab]
          cases hbc : f b c with
          | lt => rfl
          | gt => rw [hbc] at h₂; simp at h₂
          | eq =>
            rw [hbc] at h₂
            exact ih h₁ h₂

theorem tokCmp_refl (t : NatTok) : tokCmp t t = Ordering.eq := by
  cases t with
  | num n => exact ncmp_refl n
  | str cs => exact lexCmp_refl charCmp charCmp_refl cs

theorem tokCmp_swap (a b : NatTok) : tokCmp a b = (tokCmp b a).swap := by
  cases a <;> cases b <;>
    simp only [tokCmp, Ordering.swap] <;>
    first
      | rfl
      | exact ncmp_swap _ _
      | exact lexCmp_swap charCmp charCmp_swap _ _

theorem tokCmp_lt_trans : ∀ {a b c : NatTok}, tokCmp a b = Ordering.lt →
    tokCmp b c = Ordering.lt → tokCmp a c = Ordering.lt := by
  intro a b c h₁ h₂
  cases a <;> cases b <;> cases c <;> simp only [tokCmp] at h₁ h₂ ⊢ <;>
    first
      | rfl
      | exact Ordering.noConfusion h₁
      | exact Ordering.noConfusion h₂
      | exact ncmp_lt_trans h₁ h₂
      | exact lexCmp_lt_trans charCmp charCmp_swap
          (fun h h' => charCmp_lt_trans h h') (fun h => charCmp_eq_congr h)
          h₁ h₂

theorem tokCmp_eq_congr : ∀ {a b : NatTok} (c : NatTok),
    tokCmp a b = Ordering.eq → tokCmp a c = tokCmp b c := by
  intro a b c h
  cases a with
  | num m =>
    cases b with
    | num n =>
      cases c with
      | num k => exact ncmp_eq_congr h
      | str t => rfl
    | str t => exact Ordering.noConfusion h
  | str s =>
    cases b with
    | num n => exact Ordering.noConfusion h
    | str t =>
      cases c with
      | num k => rfl
      | str u =>
        exact lexCmp_eq_congr charCmp (fun h => charCmp_eq_congr h) u h

theorem keyCmp_swap (a b : String) : keyCmp a b = (keyCmp b a).swap :=
  lexCmp_swap tokCmp tokCmp_swap _ _

theorem keyCmp_refl (a : String) : keyCmp a a = Ordering.eq :=
  lexCmp_refl tokCmp tokCmp_refl _

theorem keyCmp_lt_trans {a b c : String} (h₁ : keyCmp a b = Ordering.lt)
    (h₂ : keyCmp b c = Ordering.lt) : keyCmp a c = Ordering.lt :=
  lexCmp_lt_trans tokCmp tokCmp_swap (fun h h' => tokCmp_lt_trans h h')
    (fun h => tokCmp_eq_congr _ h) h₁ h₂

theorem keyCmp_eq_congr {a b : String} (c : String)
    (h : keyCmp a b = Ordering.eq) : keyCmp a c = keyCmp b c :=
  lexCmp_eq_congr tokCmp (fun h => tokCmp_eq_congr _ h) _ h

theorem keyCmp_eq_symm {a b : String} (h : keyCmp a b = Ordering.eq) :
    keyCmp b a = Ordering.eq := by
  rw [keyCmp_swap b a, h]; rfl

theorem keyCmp_gt_iff {a b : String} :
    keyCmp a b = Ordering.gt ↔ keyCmp b a = Ordering.lt := by
  rw [keyCmp_swap a b]
  cases keyCmp b a <;> simp [Ordering.swap]

instance : IsTotal String natLe := by
  constructor
  intro a b
  unfold natLe
  by_cases h : keyCmp a b = Ordering.gt
  · right
    intro hba
    rw [keyCmp_gt_iff] at h hba
    have h₅ := keyCmp_lt_trans h hba
    rw [keyCmp_refl] at h₅
    exact Ordering.noConfusion h₅
  · left; exact h

instance : IsTrans String natLe := by
  constructor
  intro a b c hab hbc
  unfold natLe at *
  intro hac
  cases h₁ : keyCmp a b with
  | gt => exact hab h₁
  | eq =>
    apply hbc
    rw [← keyCmp_eq_congr c h₁]
    exact hac
  | lt =>
    cases h₂ : keyCmp b c with
    | gt => exact hbc h₂
    | eq =>
      apply hab
      have h₃ : keyCmp c b = Ordering.eq := keyCmp_eq_symm h₂
      have h₄ : keyCmp c a = keyCmp b a := keyCmp_eq_congr a h₃
      rw [keyCmp_gt_iff] at hac ⊢
      rwa [h₄] at hac
    | lt =>
      have h₅ := keyCmp_lt_trans h₁ h₂
      rw [hac] at h₅
      exact Ordering.noConfusion h₅

instance {β : Type} : IsTotal (String × β) (pairLe (β := β)) := by
  constructor
  intro p q
  exact IsTotal.total (r := natLe) p.1 q.1

instance {β : Type} : IsTrans (String × β) (pairLe (β := β)) := by
  constructor
  intro p q r h₁ h₂
  exact IsTrans.trans (r := natLe) p.1 q.1 r.1 h₁ h₂

/-! ### Stable sort consistency

`List.insertionSort` is stable, like Python's `sorted`; sorting a zipped
column by the first component induces the same permutation as sorting the
ids alone. -/

theorem map_orderedInsert {α β : Type} (f : α → β)
    (r : α → α → Prop) (s : β → β → Prop) [DecidableRel r] [DecidableRel s]
    (hcompat : ∀ a b, r a b ↔ s (f a) (f b)) (a : α) :
    ∀ l : List α,
      (List.orderedInsert r a l).map f =
        List.orderedInsert s (f a) (l.map f) := by
  intro l
  induction l with
  | nil => rfl
  | cons b l ih =>
    by_cases h : r a b
    · rw [List.orderedInsert, if_pos h, List.map_cons, List.map_cons,
        List.orderedInsert, if_pos ((hcompat a b).mp h)]
    · rw [List.orderedInsert, if_neg h, List.map_cons, List.map_cons,
        List.orderedInsert,
        if_neg (fun hs => h ((hcompat a b).mpr hs)), ih]

theorem map_insertionSort {α β : Type} (f : α → β)
    (r : α → α → Prop) (s : β → β → Prop) [DecidableRel r] [DecidableRel s]
    (hcompat : ∀ a b, r a b ↔ s (f a) (f b)) :
    ∀ l : List α,
      (List.insertionSort r l).map f = List.insertionSort s (l.map f) := by
  intro l
  induction l with
  | nil => rfl
  | cons a l ih =>
    rw [List.insertionSort, List.map_cons, List.insertionSort,
      map_orderedInsert f r s hcompat, ih]

theorem map_fst_insertionSort {β : Type} (l : List (String × β)) :
    (List.insertionSort pairLe l).map Prod.fst =
      List.insertionSort natLe (l.map Prod.fst) :=
  map_insertionSort Prod.fst pairLe natLe (fun _ _ => Iff.rfl) l

theorem zip_map_fst_snd {α β : Type} (l : List (α × β)) :
    (l.map Prod.fst).zip (l.map Prod.snd) = l := by
  induction l with
  | nil => rfl
  | cons p l ih => simp [ih]

/-! ### List minimum/maximum lemmas -/

theorem foldl_min_le_init : ∀ (xs : List ℕ) (a : ℕ),
    xs.foldl Nat.min a ≤ a := by
  intro xs
  induction xs with
  | nil => intro a; exact Nat.le_refl a
  | cons x xs ih =>
    intro a
    calc (x :: xs).foldl Nat.min a = xs.foldl Nat.min (Nat.min a x) := rfl
      _ ≤ Nat.min a x := ih _
      _ ≤ a := Nat.min_le_left _ _

theorem foldl_min_le_mem : ∀ (xs : List ℕ) (a x : ℕ), x ∈ xs →
    xs.foldl Nat.min a ≤ x := by
  intro xs
  induction xs with
  | nil => intro a x hx; cases hx
  | cons y ys ih =>
    intro a x hx
    rcases List.mem_cons.mp hx with h | h
    · subst h
      calc (x :: ys).foldl Nat.min a = ys.foldl Nat.min (Nat.min a x) := rfl
        _ ≤ Nat.min a x := foldl_min_le_init _ _
        _ ≤ x := Nat.min_le_right _ _
    · exact ih _ x h

theorem foldl_min_mem : ∀ (xs : List ℕ) (a : ℕ),
    xs.foldl Nat.min a = a ∨ xs.foldl Nat.min a ∈ xs := by
  intro xs
  induction xs with
  | nil => intro a; exact Or.inl rfl
  | cons x xs ih =>
    intro a
    rcases ih (Nat.min a x) with h | h
    · have hm : Nat.min a x = a ∨ Nat.min a x = x := by
        change min a x = a ∨ min a x = x
        omega
      have hfold : (x :: xs).foldl Nat.min a = Nat.min a x := h
      rcases hm with hm | hm
      · left; rw [hfold, hm]
      · right; rw [hfold, hm]; exact List.mem_cons_self x xs
    · right
      exact List.mem_cons_of_mem x h

theorem listMin_le {l : List ℕ} {x : ℕ} (hx : x ∈ l) : listMin l ≤ x := by
  cases l with
  | nil => cases hx
  | cons y ys =>
    rcases List.mem_cons.mp hx with h | h
    · subst h; exact foldl_min_le_init ys x
    · exact foldl_min_le_mem ys y x h

theorem listMin_mem {l : List ℕ} (hl : l ≠ []) : listMin l ∈ l := by
  cases l with
  | nil => exact absurd rfl hl
  | cons y ys =>
    rcases foldl_min_mem ys y with h | h
    · rw [show listMin (y :: ys) = ys.foldl Nat.min y from rfl, h]
      exact List.mem_cons_self y ys
    · exact List.mem_cons_of_mem y h

theorem foldl_max_init_le : ∀ (xs : List ℕ) (a : ℕ),
    a ≤ xs.foldl Nat.max a := by
  intro xs
  induction xs with
  | nil => intro a; exact Nat.le_refl a
  | cons x xs ih =>
    intro a
    calc a ≤ Nat.max a x := Nat.le_max_left _ _
      _ ≤ xs.foldl Nat.max (Nat.max a x) := ih _
      _ = (x :: xs).foldl Nat.max a := rfl

theorem foldl_max_mem_le : ∀ (xs : List ℕ) (a x : ℕ), x ∈ xs →
    x ≤ xs.foldl Nat.max a := by
  intro xs
  induction xs with
  | nil => intro a x hx; cases hx
  | cons y ys ih =>
    intro a x hx
    rcases List.mem_cons.mp hx with h | h
    · subst h
      calc x ≤ Nat.max a x := Nat.le_max_right _ _
        _ ≤ ys.foldl Nat.max (Nat.max a x) := foldl_max_init_le _ _
        _ = (x :: ys).foldl Nat.max a := rfl
    · exact ih _ x h

theorem foldl_max_mem : ∀ (xs : List ℕ) (a : ℕ),
    xs.foldl Nat.max a = a ∨ xs.foldl Nat.max a ∈ xs := by
  intro xs
  induction xs with
  | nil => intro a; exact Or.inl rfl
  | cons x xs ih =>
    intro a
    rcases ih (Nat.max a x) with h | h
    · have hm : Nat.max a x = a ∨ Nat.max a x = x := by
        change max a x = a ∨ max a x = x
        omega
      have hfold : (x :: xs).foldl Nat.max a = Nat.max a x := h
      rcases hm with hm | hm
      · left; rw [hfold, hm]
      · right; rw [hfold, hm]; exact List.mem_cons_self x xs
    · right
      exact List.mem_cons_of_mem x h

theorem le_listMax {l : List ℕ} {x : ℕ} (hx : x ∈ l) : x ≤ listMax l := by
  cases l with
  | nil => cases hx
  | cons y ys =>
    rcases List.mem_cons.mp hx with h | h
    · subst h; exact foldl_max_init_le ys x
    · exact foldl_max_mem_le ys y x h

theorem listMax_mem {l : List ℕ} (hl : l ≠ []) : listMax l ∈ l := by
  cases l with
  | nil => exact absurd rfl hl
  | cons y ys =>
    rcases foldl_max_mem ys y with h | h
    · rw [show listMax (y :: ys) = ys.foldl Nat.max y from rfl, h]
      exact List.mem_cons_self y ys
    · exact List.mem_cons_of_mem y h

/-! ### Foreground pixel characterization -/

theorem rowFg_mem : ∀ (row : List Bool) (r c i j),
    (i, j) ∈ rowFg r c row ↔
      (i = r ∧ ∃ k, row.get? k = some true ∧ j = c + k) := by
  intro row
  induction row with
  | nil =>
    intro r c i j
    simp [rowFg]
  | cons b rest ih =>
    intro r c i j
    simp only [rowFg, List.mem_append]
    constructor
    · intro h
      rcases h with h | h
      · cases b with
        | false => simp at h
        | true =>
          simp at h
          obtain ⟨hi, hj⟩ := h
          exact ⟨hi, 0, by simp, by omega⟩
      · obtain ⟨hi, k, hk, hj⟩ := (ih r (c + 1) i j).mp h
        exact ⟨hi, k + 1, by simpa using hk, by omega⟩
    · rintro ⟨hi, k, hk, hj⟩
      cases k with
      | zero =>
        left
        simp at hk
        subst hk
        simp [hi, hj]
      | succ k =>
        right
        apply (ih r (c + 1) i j).mpr
        refine ⟨hi, k, by simpa using hk, by omega⟩

theorem fgAux_mem : ∀ (m : List (List Bool)) (r i j),
    (i, j) ∈ fgAux r m ↔
      (∃ s row, m.get? s = some row ∧ i = r + s ∧
        row.get? j = some true) := by
  intro m
  induction m with
  | nil =>
    intro r i j
    simp [fgAux]
  | cons row rest ih =>
    intro r i j
    simp only [fgAux, List.mem_append]
    constructor
    · intro h
      rcases h with h | h
      · obtain ⟨hi, k, hk, hj⟩ := (rowFg_mem row r 0 i j).mp h
        refine ⟨0, row, by simp, by omega, ?_⟩
        rwa [show j = k by omega]
      · obtain ⟨s, row', hs, hi, hj⟩ := (ih (r + 1) i j).mp h
        exact ⟨s + 1, row', by simpa using hs, by omega, hj⟩
    · rintro ⟨s, row', hs, hi, hj⟩
      cases s with
      | zero =>
        left
        simp at hs
        subst hs
        exact (rowFg_mem row r 0 i j).mpr ⟨by omega, j, hj, by omega⟩
      | succ s =>
        right
        apply (ih (r + 1) i j).mpr
        exact ⟨s, row', by simpa using hs, by omega, hj⟩

theorem fgPixels_mem (m : List (List Bool)) (r c : ℕ) :
    (r, c) ∈ fgPixels m ↔
      ∃ row, m.get? r = some row ∧ row.get? c = some true := by
  unfold fgPixels
  rw [fgAux_mem]
  constructor
  · rintro ⟨s, row, hs, hr, hc⟩
    exact ⟨row, by rwa [hr, Nat.zero_add], hc⟩
  · rintro ⟨row, hr, hc⟩
    exact ⟨r, row, hr, (Nat.zero_add r).symm, hc⟩

/-! ### Claim C5: `BBox.from_mask` -/

theorem mask_to_bbox_eq (m : List (List Bool)) (h : fgPixels m ≠ []) :
    mask_to_bbox m =
      [(listMin ((fgPixels m).map Prod.snd) : ℚ),
       (listMin ((fgPixels m).map Prod.fst) : ℚ),
       (listMax ((fgPixels m).map Prod.snd) : ℚ) -
         (listMin ((fgPixels m).map Prod.snd) : ℚ) + 1,
       (listMax ((fgPixels m).map Prod.fst) : ℚ) -
         (listMin ((fgPixels m).map Prod.fst) : ℚ) + 1] := by
  unfold mask_to_bbox
  cases hfg : fgPixels m with
  | nil => exact absurd hfg h
  | cons p pts => rfl

theorem hasFg_iff (m : List (List Bool)) :
    hasFg m = true ↔ fgPixels m ≠ [] := by
  unfold hasFg
  cases hfg : fgPixels m <;> simp

theorem from_mask_coords_ne (m : List (List Bool)) (h : hasFg m = true) :
    (BBox.from_mask m).coords ≠ [(0 : ℚ), 0, 0, 0] := by
  have hne : fgPixels m ≠ [] := (hasFg_iff m).mp h
  obtain ⟨p, hp⟩ := List.exists_mem_of_ne_nil _ hne
  have hmem : p.2 ∈ (fgPixels m).map Prod.snd := List.mem_map_of_mem _ hp
  have h₁ : listMin ((fgPixels m).map Prod.snd) ≤ p.2 := listMin_le hmem
  have h₂ : p.2 ≤ listMax ((fgPixels m).map Prod.snd) := le_listMax hmem
  have hle : (listMin ((fgPixels m).map Prod.snd) : ℚ) ≤
      (listMax ((fgPixels m).map Prod.snd) : ℚ) :=
    Nat.cast_le.mpr (Nat.le_trans h₁ h₂)
  intro heq
  have hco : (BBox.from_mask m).coords = mask_to_bbox m := rfl
  rw [hco, mask_to_bbox_eq m hne] at heq
  simp only [List.cons.injEq, and_true] at heq
  obtain ⟨-, -, h3, -⟩ := heq
  linarith

/-- C5: the claim states that for a mask with at least one foreground
pixel, `BBox.from_mask` returns the tight bounding rectangle with
`is_normalized = false`; the constructor default actually makes the flag
`true`, refuted here on the one-pixel mask, which does have a foreground
pixel. -/
theorem from_mask_is_normalized_cex :
    hasFg [[true]] = true ∧
      (BBox.from_mask [[true]]).is_normalized = true :=
  ⟨rfl, rfl⟩

/-- C5 (amended): for every mask with at least one foreground pixel,
`BBox.from_mask` returns the tight axis-aligned bounding rectangle of the
foreground pixels in `xywh` format, with no confidence — but with
`is_normalized = true` (the constructor default), not `false`. -/
theorem from_mask_tight_rect (m : List (List Bool)) (h : hasFg m = true) :
    (BBox.from_mask m).format = "xywh" ∧
    (BBox.from_mask m).is_normalized = true ∧
    (BBox.from_mask m).confidence = none ∧
    (BBox.from_mask m).coords =
      [(listMin ((fgPixels m).map Prod.snd) : ℚ),
       (listMin ((fgPixels m).map Prod.fst) : ℚ),
       (listMax ((fgPixels m).map Prod.snd) : ℚ) -
         (listMin ((fgPixels m).map Prod.snd) : ℚ) + 1,
       (listMax ((fgPixels m).map Prod.fst) : ℚ) -
         (listMin ((fgPixels m).map Prod.fst) : ℚ) + 1] ∧
    (∀ p ∈ fgPixels m,
      listMin ((fgPixels m).map Prod.snd) ≤ p.2 ∧
      p.2 ≤ listMax ((fgPixels m).map Prod.snd) ∧
      listMin ((fgPixels m).map Prod.fst) ≤ p.1 ∧
      p.1 ≤ listMax ((fgPixels m).map Prod.fst)) ∧
    (∃ p ∈ fgPixels m, p.2 = listMin ((fgPixels m).map Prod.snd)) ∧
    (∃ p ∈ fgPixels m, p.2 = listMax ((fgPixels m).map Prod.snd)) ∧
    (∃ p ∈ fgPixels m, p.1 = listMin ((fgPixels m).map Prod.fst)) ∧
    (∃ p ∈ fgPixels m, p.1 = listMax ((fgPixels m).map Prod.fst)) ∧
    (∀ r c : ℕ, (r, c) ∈ fgPixels m ↔
      ∃ row, m.get? r = some row ∧ row.get? c = some true) := by
  have hne : fgPixels m ≠ [] := (hasFg_iff m).mp h
  have hcs : ((fgPixels m).map Prod.snd) ≠ [] := by
    intro hmap
    exact hne (List.map_eq_nil_iff.mp hmap)
  have hrs : ((fgPixels m).map Prod.fst) ≠ [] := by
    intro hmap
    exact hne (List.map_eq_nil_iff.mp hmap)
  refine ⟨rfl, rfl, rfl, mask_to_bbox_eq m hne, ?_, ?_, ?_, ?_, ?_, ?_⟩
  · intro p hp
    have hmem2 : p.2 ∈ (fgPixels m).map Prod.snd := List.mem_map_of_mem _ hp
    have hmem1 : p.1 ∈ (fgPixels m).map Prod.fst := List.mem_map_of_mem _ hp
    exact ⟨listMin_le hmem2, le_listMax hmem2, listMin_le hmem1,
      le_listMax hmem1⟩
  · obtain ⟨p, hp, hpe⟩ := List.mem_map.mp (listMin_mem hcs)
    exact ⟨p, hp, hpe⟩
  · obtain ⟨p, hp, hpe⟩ := List.mem_map.mp (listMax_mem hcs)
    exact ⟨p, hp, hpe⟩
  · obtain ⟨p, hp, hpe⟩ := List.mem_map.mp (listMin_mem hrs)
    exact ⟨p, hp, hpe⟩
  · obtain ⟨p, hp, hpe⟩ := List.mem_map.mp (listMax_mem hrs)
    exact ⟨p, hp, hpe⟩
  · intro r c
    exact fgPixels_mem m r c

/-- C5 witness: the one-pixel mask satisfies the hypothesis and the
theorem applies to it. -/
theorem from_mask_tight_rect_witness :
    hasFg [[true]] = true ∧
      ((BBox.from_mask [[true]]).format = "xywh" ∧
        (BBox.from_mask [[true]]).is_normalized = true) :=
  ⟨rfl, (from_mask_tight_rect [[true]] rfl).1,
    (from_mask_tight_rect [[true]] rfl).2.1⟩

/-! ### Claim C6: bbox format round trip -/

/-- C6: the claim states that `to_xywh(to_xyxy(b)) == b` for every bbox
with no data loss in any field; refuted on a bbox in `xywh` format that
carries a confidence value, which the conversion constructors drop. -/
theorem bbox_roundtrip_cex :
    BBox.to_xywh (BBox.to_xyxy cexBBox) ≠ cexBBox := by
  intro h
  have hc := congrArg BBox.confidence h
  exact Option.noConfusion hc

/-- C6 (amended): for every bbox in `xywh` format with no confidence
value, the round trip `to_xywh (to_xyxy b)` is the identity; in general
the round trip forces the format to `xywh` and drops the confidence
field. -/
theorem bbox_roundtrip_xywh (x y w h : ℚ) (n : Bool) :
    BBox.to_xywh (BBox.to_xyxy (BBox.mk [x, y, w, h] "xywh" n none)) =
      BBox.mk [x, y, w, h] "xywh" n none := by
  simp [BBox.to_xyxy, BBox.to_xywh, BBox.xyxy_coords, BBox.xywh_coords,
    xywh_to_xyxy, xyxy_to_xywh]

/-! ### Claim C8: provenance rule -/

/-- C8: the claim states the displayed source equals `mask_source`
whenever it is present; refuted on an annotation whose `mask_source` is
present but empty — Python's `or` then falls through to `bbox_source`. -/
theorem displayed_source_cex :
    cexAnnSource.mask_source = some "" ∧
      displayedSource cexAnnSource = "model" := ⟨rfl, rfl⟩

/-- C8 (amended): the displayed source is `mask_source` whenever it is
present and non-empty, otherwise `bbox_source` whenever that is present
and non-empty, otherwise the ground-truth marker: empty strings behave
like absent sources. -/
theorem displayed_source_rule (o : ObjectAnnotation) :
    displayedSource o = amendedSource o := by
  unfold displayedSource amendedSource pyOrStr
  cases o.mask_source with
  | none =>
    cases o.bbox_source with
    | none => rfl
    | some t => by_cases ht : t = "" <;> simp [ht]
  | some s =>
    cases o.bbox_source with
    | none => by_cases hs : s = "" <;> simp [hs]
    | some t =>
      by_cases hs : s = "" <;> by_cases ht : t = "" <;> simp [hs, ht]

/-! ### Claim C9: stats side-file upsert -/

/-- C9: the claim states the upsert preserves the record's full shape
including the optional `range` field; refuted on a record carrying a
range — the written record drops it. -/
theorem stat_upsert_cex :
    statUpsert cexStat [] ≠ [cexStat] := by
  intro h
  have h1 : (statUpsert cexStat []).head? = some cexStat := by rw [h]; rfl
  have h2 : (statUpsert cexStat []).head? =
      some (StatRec.mk "hist" "numerical" 1 none) := rfl
  rw [h1] at h2
  have h3 := congrArg (fun o => (o.getD cexStat).range) h2
  exact Option.noConfusion h3

/-- C9 (amended): the stats record is upserted by name — records with a
different name are kept unchanged, exactly one record with the written
name remains and it is placed last — but the written record carries only
`name`, `type` and `histogram`: the `range` field is always dropped. -/
theorem stat_upsert_rule {α β : Type} (self : StatRec α β)
    (file : List (StatRec α β)) :
    (statUpsert self file).filter (fun r => r.name != self.name) =
        file.filter (fun r => r.name != self.name) ∧
    (∀ r ∈ statUpsert self file, r.name = self.name →
      r = StatRec.mk self.name self.type self.histogram none) ∧
    (∃ r ∈ statUpsert self file, r.name = self.name) ∧
    (statUpsert self file).countP (fun r => r.name == self.name) = 1 := by
  refine ⟨?_, ?_, ?_, ?_⟩
  · unfold statUpsert
    rw [List.filter_append]
    have h1 : List.filter (fun r => r.name != self.name)
        [(StatRec.mk self.name self.type self.histogram none :
          StatRec α β)] = [] := by
      simp
    rw [h1, List.append_nil, List.filter_filter]
    simp
  · intro r hr hname
    unfold statUpsert at hr
    rcases List.mem_append.mp hr with h | h
    · have := List.of_mem_filter h
      simp [hname] at this
    · simpa using h
  · refine ⟨StatRec.mk self.name self.type self.histogram none, ?_, rfl⟩
    unfold statUpsert
    exact List.mem_append_right _ (List.mem_singleton_self _)
  · unfold statUpsert
    rw [List.countP_append]
    have h0 : (file.filter (fun r => r.name != self.name)).countP
        (fun r => r.name == self.name) = 0 := by
      rw [List.countP_eq_zero]
      intro r hr
      have := List.of_mem_filter hr
      simpa using this
    rw [h0]
    simp

/-! ### The pre-pass: `mapOpt` and `normalizeAnn` lemmas -/

theorem mapOpt_forall₂ {α β : Type} (f : α → Option β) :
    ∀ {l : List α} {l' : List β}, mapOpt f l = some l' →
      List.Forall₂ (fun a b => f a = some b) l l' := by
  intro l
  induction l with
  | nil =>
    intro l' h
    simp only [mapOpt] at h
    cases h
    exact List.Forall₂.nil
  | cons a l ih =>
    intro l' h
    simp only [mapOpt] at h
    cases hfa : f a with
    | none => rw [hfa] at h; cases h
    | some b =>
      rw [hfa] at h
      cases hml : mapOpt f l with
      | none => rw [hml] at h; cases h
      | some bs =>
        rw [hml] at h
        cases h
        exact List.Forall₂.cons hfa (ih hml)

theorem forall₂_of_mem {α β : Type} {R S : α → β → Prop}
    {l : List α} {l' : List β} (h : List.Forall₂ R l l')
    (himp : ∀ a b, a ∈ l → R a b → S a b) : List.Forall₂ S l l' := by
  induction h with
  | nil => exact List.Forall₂.nil
  | cons hR hrest ih =>
    exact List.Forall₂.cons
      (himp _ _ (List.mem_cons_self _ _) hR)
      (ih (fun a b ha => himp a b (List.mem_cons_of_mem _ ha)))

theorem normalizeAnn_mask {a a' : ObjectAnnotation} {u : URLE}
    (h : normalizeAnn a = some a') (hm : a.mask = MaskVal.urle u) :
    a'.mask = MaskVal.rle (CompressedRLE.from_urle u) := by
  unfold normalizeAnn at h
  rw [hm] at h
  cases hb : a.bbox with
  | none => rw [hb] at h; cases h
  | some b =>
    rw [hb] at h
    cases h
    rfl

theorem normalizeAnn_bbox_fill {a a' : ObjectAnnotation} {u : URLE}
    {b : BBox} (h : normalizeAnn a = some a')
    (hm : a.mask = MaskVal.urle u) (hb : a.bbox = some b)
    (hzero : b.coords = [(0 : ℚ), 0, 0, 0]) :
    a'.bbox = some (BBox.from_mask (CompressedRLE.from_urle u).to_mask) := by
  unfold normalizeAnn at h
  rw [hm, hb] at h
  cases h
  simp [hzero]

theorem normalizeAnn_bbox_keep {a a' : ObjectAnnotation} {u : URLE}
    {b : BBox} (h : normalizeAnn a = some a')
    (hm : a.mask = MaskVal.urle u) (hb : a.bbox = some b)
    (hnz : b.coords ≠ [(0 : ℚ), 0, 0, 0]) : a'.bbox = some b := by
  unfold normalizeAnn at h
  rw [hm, hb] at h
  cases h
  simp [hnz]

theorem normalizeAnn_usable {a a' : ObjectAnnotation}
    (hfg : annFg a = true) (h : normalizeAnn a = some a') :
    ∃ b', a'.bbox = some b' ∧ b'.coords ≠ [(0 : ℚ), 0, 0, 0] := by
  unfold annFg at hfg
  cases hm : a.mask with
  | none => rw [hm] at hfg; cases hfg
  | rle c => rw [hm] at hfg; cases hfg
  | urle u =>
    rw [hm] at hfg
    cases hb : a.bbox with
    | none =>
      unfold normalizeAnn at h
      rw [hm, hb] at h
      cases h
    | some b =>
      by_cases hz : b.coords = [(0 : ℚ), 0, 0, 0]
      · exact ⟨BBox.from_mask (CompressedRLE.from_urle u).to_mask,
          normalizeAnn_bbox_fill h hm hb hz,
          from_mask_coords_ne _ hfg⟩
      · exact ⟨b, normalizeAnn_bbox_keep h hm hb hz, hz⟩

/-! ### Filesystem lookup and update lemmas -/

theorem lookupFS_mem {β : Type} {k : String} {v : β} :
    ∀ {fs : List (String × β)}, lookupFS k fs = some v → (k, v) ∈ fs := by
  intro fs
  induction fs with
  | nil => intro h; cases h
  | cons e rest ih =>
    intro h
    unfold lookupFS at h
    by_cases he : e.1 = k
    · rw [if_pos he] at h
      cases h
      have hek : (k, e.2) = e := by rw [← he]
      rw [hek]
      exact List.mem_cons_self e rest
    · rw [if_neg he] at h
      exact List.mem_cons_of_mem _ (ih h)

theorem lookupFS_of_mem_nodup {β : Type} {k : String} {v : β} :
    ∀ {fs : List (String × β)}, (fs.map Prod.fst).Nodup →
      (k, v) ∈ fs → lookupFS k fs = some v := by
  intro fs
  induction fs with
  | nil => intro _ h; cases h
  | cons e rest ih =>
    intro hnd hmem
    rw [List.map_cons, List.nodup_cons] at hnd
    rcases List.mem_cons.mp hmem with h | h
    · subst h
      unfold lookupFS
      rw [if_pos rfl]
    · unfold lookupFS
      by_cases he : e.1 = k
      · exfalso
        apply hnd.1
        rw [he]
        exact List.mem_map_of_mem Prod.fst h
      · rw [if_neg he]
        exact ih hnd.2 h

theorem lookupFS_updateFS_ne {β : Type} {g k : String} {v : β}
    (hne : g ≠ k) (fs : List (String × β)) :
    lookupFS g (updateFS fs k v) = lookupFS g fs := by
  induction fs with
  | nil => rfl
  | cons e rest ih =>
    simp only [updateFS, List.map_cons] at ih ⊢
    by_cases he : e.1 = k
    · rw [if_pos he]
      simp only [lookupFS]
      have h1 : ¬ (k = g) := fun h => hne h.symm
      have h2 : ¬ (e.1 = g) := fun h => hne ((h ▸ he : g = k))
      rw [if_neg h1, if_neg h2]
      exact ih
    · rw [if_neg he]
      simp only [lookupFS]
      by_cases hg : e.1 = g
      · rw [if_pos hg, if_pos hg]
      · rw [if_neg hg, if_neg hg]
        exact ih

theorem lookupFS_updateFS_self {β : Type} {k : String} {v : β} :
    ∀ {fs : List (String × β)}, k ∈ fs.map Prod.fst →
      lookupFS k (updateFS fs k v) = some v := by
  intro fs
  induction fs with
  | nil => intro h; cases h
  | cons e rest ih =>
    intro hmem
    unfold updateFS
    rw [List.map_cons]
    by_cases he : e.1 = k
    · rw [if_pos he]
      unfold lookupFS
      rw [if_pos rfl]
    · rw [if_neg he]
      unfold lookupFS
      rw [if_neg he]
      apply ih
      rcases List.mem_cons.mp hmem with h | h
      · exact absurd h.symm he
      · exact h

/-! ### Driver fold lemmas -/

theorem fold_no_find {α : Type} [Inhabited α] (item_id : String)
    (anns : List ObjectAnnotation) :
    ∀ (files : List String) (fs : List (String × Table α))
      (evs : List (FileEvent α)),
      (∀ f ∈ files, ∀ t, lookupFS f fs = some t → item_id ∉ t.ids) →
      files.foldl (saveStep item_id anns) (fs, evs) = (fs, evs) := by
  intro files
  induction files with
  | nil => intro fs evs _; rfl
  | cons f rest ih =>
    intro fs evs habs
    rw [List.foldl_cons]
    have hstep : saveStep item_id anns (fs, evs) f = (fs, evs) := by
      unfold saveStep
      cases hl : lookupFS f fs with
      | none => rfl
      | some t =>
        have hni : item_id ∉ t.ids :=
          habs f (List.mem_cons_self _ _) t hl
        simp only [if_neg hni]
    rw [hstep]
    exact ih fs evs (fun g hg t hl =>
      habs g (List.mem_cons_of_mem _ hg) t hl)

theorem fold_found {α : Type} [Inhabited α] (item_id : String)
    (anns : List ObjectAnnotation) :
    ∀ (files : List String) (fs : List (String × Table α))
      (evs : List (FileEvent α)) (file₀ : String) (t₀ : Table α),
      files.Nodup → file₀ ∈ files → lookupFS file₀ fs = some t₀ →
      item_id ∈ t₀.ids →
      (∀ f ∈ files, f ≠ file₀ → ∀ t, lookupFS f fs = some t →
        item_id ∉ t.ids) →
      files.foldl (saveStep item_id anns) (fs, evs) =
        (updateFS fs file₀ (rewriteTable t₀ item_id anns),
         evs ++ [FileEvent.write file₀ (rewriteTable t₀ item_id anns)]) := by
  intro files
  induction files with
  | nil => intro fs evs file₀ t₀ _ hmem; cases hmem
  | cons f rest ih =>
    intro fs evs file₀ t₀ hnd hmem hl hfound habs
    rw [List.nodup_cons] at hnd
    rw [List.foldl_cons]
    by_cases hf : f = file₀
    · subst hf
      have hstep : saveStep item_id anns (fs, evs) f =
          (updateFS fs f (rewriteTable t₀ item_id anns),
           evs ++ [FileEvent.write f (rewriteTable t₀ item_id anns)]) := by
        unfold saveStep
        rw [show lookupFS f (fs, evs).1 = some t₀ from hl]
        simp only [if_pos hfound]
      rw [hstep]
      apply fold_no_find
      intro g hg t hlg
      have hgne : g ≠ f := fun h => hnd.1 (h ▸ hg)
      rw [lookupFS_updateFS_ne hgne] at hlg
      exact habs g (List.mem_cons_of_mem _ hg) hgne t hlg
    · have hmem' : file₀ ∈ rest := by
        rcases List.mem_cons.mp hmem with h | h
        · exact absurd h.symm hf
        · exact h
      have hstep : saveStep item_id anns (fs, evs) f = (fs, evs) := by
        unfold saveStep
        cases hlf : lookupFS f fs with
        | none => rfl
        | some t =>
          have hni : item_id ∉ t.ids :=
            habs f (List.mem_cons_self _ _) hf t hlf
          simp only [if_neg hni]
      rw [hstep]
      exact ih fs evs file₀ t₀ hnd.2 hmem' hl hfound
        (fun g hg hgne t hlg =>
          habs g (List.mem_cons_of_mem _ hg) hgne t hlg)

/-! ### The transaction as a whole -/

theorem pairwise_disjoint_symm {α : Type} :
    Symmetric (fun p q : String × Table α =>
      ∀ s, s ∈ p.2.ids → s ∉ q.2.ids) := by
  intro p q h s hsq hsp
  exact h s hsp hsq

theorem save_not_found {α : Type} [Inhabited α]
    {fs : List (String × Table α)} {item_id : String}
    {anns anns2 : List ObjectAnnotation}
    (Hm : mapOpt normalizeAnn anns = some anns2)
    (Habs : ∀ p ∈ fs, item_id ∉ p.2.ids) :
    save_item_annotations fs item_id anns = some (anns2, fs, []) := by
  unfold save_item_annotations
  rw [Hm]
  have hfold := fold_no_find item_id anns2
    (List.insertionSort natLe (fs.map Prod.fst)) fs []
    (fun f _ t hl => Habs (f, t) (lookupFS_mem hl))
  simp only [hfold]

theorem save_found {α : Type} [Inhabited α]
    {fs : List (String × Table α)} {item_id : String}
    {anns anns2 : List ObjectAnnotation} {file₀ : String} {t₀ : Table α}
    (Hm : mapOpt normalizeAnn anns = some anns2)
    (Hkeys : (fs.map Prod.fst).Nodup)
    (Hdisj : fs.Pairwise (fun p q => ∀ s, s ∈ p.2.ids → s ∉ q.2.ids))
    (Hmem : (file₀, t₀) ∈ fs) (Hfound : item_id ∈ t₀.ids) :
    save_item_annotations fs item_id anns =
      some (anns2, updateFS fs file₀ (rewriteTable t₀ item_id anns2),
        [FileEvent.write file₀ (rewriteTable t₀ item_id anns2)]) := by
  unfold save_item_annotations
  rw [Hm]
  have hperm := List.perm_insertionSort natLe (fs.map Prod.fst)
  have hnd : (List.insertionSort natLe (fs.map Prod.fst)).Nodup :=
    hperm.symm.nodup Hkeys
  have hmemf : file₀ ∈ List.insertionSort natLe (fs.map Prod.fst) :=
    hperm.mem_iff.mpr (List.mem_map_of_mem Prod.fst Hmem)
  have hl : lookupFS file₀ fs = some t₀ := lookupFS_of_mem_nodup Hkeys Hmem
  have habs : ∀ f ∈ List.insertionSort natLe (fs.map Prod.fst),
      f ≠ file₀ → ∀ t, lookupFS f fs = some t → item_id ∉ t.ids := by
    intro f _ hfne t hlf hin
    have hmemt : (f, t) ∈ fs := lookupFS_mem hlf
    have hne : (f, t) ≠ (file₀, t₀) := fun h => hfne (congrArg Prod.fst h)
    have hdisj := List.Pairwise.forall pairwise_disjoint_symm Hdisj
      hmemt Hmem hne
    exact hdisj item_id hin Hfound
  have hfold := fold_found item_id anns2
    (List.insertionSort natLe (fs.map Prod.fst)) fs [] file₀ t₀
    hnd hmemf hl Hfound habs
  simp only [hfold]
  rfl

/-! ### Shard rewrite lemmas -/

theorem filter_length_nodup {l : List String} {a : String}
    (hnd : l.Nodup) (hmem : a ∈ l) :
    (l.filter (fun s => s != a)).length + 1 = l.length := by
  induction l with
  | nil => cases hmem
  | cons x xs ih =>
    rw [List.nodup_cons] at hnd
    by_cases hx : x = a
    · subst hx
      have hfx : (x != x) = false := by simp
      rw [List.filter_cons, hfx]
      simp only [Bool.false_eq_true, if_false]
      have hall : xs.filter (fun s => s != x) = xs := by
        apply List.filter_eq_self.mpr
        intro s hs
        simp only [bne_iff_ne, ne_eq]
        intro hsx
        exact hnd.1 (hsx ▸ hs)
      rw [hall, List.length_cons]
    · have hmem' : a ∈ xs := by
        rcases List.mem_cons.mp hmem with h | h
        · exact absurd h.symm hx
        · exact h
      have hfx : (x != a) = true := by simpa using hx
      rw [List.filter_cons, hfx]
      simp only [if_true, List.length_cons, List.length_cons]
      rw [← ih hnd.2 hmem']

theorem dropItem_length {β : Type} (item_id : String) :
    ∀ (ids : List String) (col : List β), col.length = ids.length →
      (dropItem item_id ids col).length =
        (ids.filter (fun s => s != item_id)).length := by
  intro ids
  induction ids with
  | nil =>
    intro col hlen
    have : col = [] := List.eq_nil_of_length_eq_zero hlen
    subst this
    rfl
  | cons x xs ih =>
    intro col hlen
    cases col with
    | nil => cases hlen
    | cons c cs =>
      simp only [List.length_cons, Nat.succ.injEq] at hlen
      unfold dropItem
      rw [List.zip_cons_cons, List.filter_cons, List.filter_cons]
      by_cases hx : x = item_id
      · have hfx : (x != item_id) = false := by simp [hx]
        simp only [hfx]
        simp only [Bool.false_eq_true, if_false]
        exact ih cs hlen
      · have hfx : (x != item_id) = true := by simpa using hx
        simp only [hfx, if_true]
        simp only [List.map_cons, List.length_cons]
        have h3 := ih cs hlen
        unfold dropItem at h3
        rw [h3]

theorem updatedUnsorted_ids {α : Type} [Inhabited α] (t : Table α)
    (item_id : String) (anns : List ObjectAnnotation) :
    (updatedUnsorted t item_id anns).ids =
      t.ids.filter (fun s => s != item_id) ++ [item_id] := rfl

theorem updatedUnsorted_wf {α : Type} [Inhabited α] {t : Table α}
    (item_id : String) (anns : List ObjectAnnotation) (Hwf : t.wf) :
    (updatedUnsorted t item_id anns).wf := by
  obtain ⟨hobj, hext⟩ := Hwf
  constructor
  · show (dropItem item_id t.ids t.objects ++ [anns]).length =
      (t.ids.filter (fun s => s != item_id) ++ [item_id]).length
    rw [List.length_append, List.length_append,
      dropItem_length item_id t.ids t.objects hobj]
    rfl
  · intro c hc
    simp only [updatedUnsorted, List.mem_map] at hc
    obtain ⟨c₀, hc₀, hceq⟩ := hc
    subst hceq
    show (dropItem item_id t.ids c₀.2 ++ [c₀.2.getD _ default]).length =
      (t.ids.filter (fun s => s != item_id) ++ [item_id]).length
    rw [List.length_append, List.length_append,
      dropItem_length item_id t.ids c₀.2 (hext c₀ hc₀)]
    rfl

theorem updatedUnsorted_length {α : Type} [Inhabited α] {t : Table α}
    {item_id : String} (anns : List ObjectAnnotation)
    (hnd : t.ids.Nodup) (hmem : item_id ∈ t.ids) :
    (updatedUnsorted t item_id anns).ids.length = t.ids.length := by
  rw [updatedUnsorted_ids, List.length_append]
  simpa using filter_length_nodup hnd hmem

theorem sorted_zip_eq {β : Type} (ids : List String) (col : List β)
    (hlen : col.length = ids.length) :
    (List.insertionSort natLe ids).zip
      ((List.insertionSort pairLe (ids.zip col)).map Prod.snd) =
      List.insertionSort pairLe (ids.zip col) := by
  have h1 : (List.insertionSort pairLe (ids.zip col)).map Prod.fst =
      List.insertionSort natLe ((ids.zip col).map Prod.fst) :=
    map_fst_insertionSort _
  have h2 : (ids.zip col).map Prod.fst = ids :=
    List.map_fst_zip ids col (Nat.le_of_eq hlen.symm)
  rw [h2] at h1
  rw [← h1, zip_map_fst_snd]

theorem rewrite_zip_objects {α : Type} [Inhabited α] (t : Table α)
    (item_id : String) (anns : List ObjectAnnotation) (Hwf : t.wf) :
    (rewriteTable t item_id anns).ids.zip
        (rewriteTable t item_id anns).objects =
      List.insertionSort pairLe
        ((updatedUnsorted t item_id anns).ids.zip
          (updatedUnsorted t item_id anns).objects) := by
  have huwf := updatedUnsorted_wf item_id anns Hwf
  exact sorted_zip_eq _ _ huwf.1

theorem mem_zip_updated {α : Type} [Inhabited α] (t : Table α)
    (item_id : String) (anns : List ObjectAnnotation) (Hwf : t.wf) :
    (item_id, anns) ∈
      (updatedUnsorted t item_id anns).ids.zip
        (updatedUnsorted t item_id anns).objects := by
  obtain ⟨hobj, -⟩ := Hwf
  show (item_id, anns) ∈
    (t.ids.filter (fun s => s != item_id) ++ [item_id]).zip
      (dropItem item_id t.ids t.objects ++ [anns])
  rw [List.zip_append
    (dropItem_length item_id t.ids t.objects hobj).symm]
  apply List.mem_append_right
  exact List.mem_cons_self _ _

theorem forall₂_map_self {γ δ : Type} {R : δ → γ → Prop} (f : γ → δ) :
    ∀ {l : List γ}, (∀ c ∈ l, R (f c) c) → List.Forall₂ R (l.map f) l := by
  intro l
  induction l with
  | nil => intro h; exact List.Forall₂.nil
  | cons c cs ih =>
    intro h
    rw [List.map_cons]
    exact List.Forall₂.cons (h c (List.mem_cons_self _ _))
      (ih (fun d hd => h d (List.mem_cons_of_mem _ hd)))

/-- C3: after a successful update of a shard containing the target id, the
shard's id column is sorted in natural key order, the row count is
unchanged (the table stays well-formed), and the `objects` column and
every other column are permuted consistently with the id column (each
id-cell pairing of the updated-but-unsorted table is preserved). -/
theorem rewrite_sorted_consistent {α : Type} [Inhabited α] (t : Table α)
    (item_id : String) (anns : List ObjectAnnotation)
    (Hwf : t.wf) (Hnodup : t.ids.Nodup) (Hmem : item_id ∈ t.ids) :
    (rewriteTable t item_id anns).ids.Pairwise natLe ∧
    (rewriteTable t item_id anns).ids.length = t.ids.length ∧
    (rewriteTable t item_id anns).wf ∧
    ((rewriteTable t item_id anns).ids.zip
        (rewriteTable t item_id anns).objects).Perm
      ((updatedUnsorted t item_id anns).ids.zip
        (updatedUnsorted t item_id anns).objects) ∧
    List.Forall₂ (fun c' c => c'.1 = c.1 ∧
        ((rewriteTable t item_id anns).ids.zip c'.2).Perm
          ((updatedUnsorted t item_id anns).ids.zip c.2))
      (rewriteTable t item_id anns).extras
      (updatedUnsorted t item_id anns).extras := by
  have huwf := updatedUnsorted_wf item_id anns Hwf
  refine ⟨?_, ?_, ?_, ?_, ?_⟩
  · exact List.sorted_insertionSort natLe
      (updatedUnsorted t item_id anns).ids
  · show (List.insertionSort natLe
      (updatedUnsorted t item_id anns).ids).length = t.ids.length
    rw [List.length_insertionSort]
    exact updatedUnsorted_length anns Hnodup Hmem
  · constructor
    · show ((List.insertionSort pairLe _).map Prod.snd).length =
        (List.insertionSort natLe _).length
      rw [List.length_map, List.length_insertionSort,
        List.length_insertionSort, List.length_zip, huwf.1]
      exact Nat.min_self _
    · intro c hc
      simp only [rewriteTable, sortTable, List.mem_map] at hc
      obtain ⟨c₀, hc₀, hceq⟩ := hc
      subst hceq
      show ((List.insertionSort pairLe _).map Prod.snd).length =
        (List.insertionSort natLe _).length
      rw [List.length_map, List.length_insertionSort,
        List.length_insertionSort, List.length_zip, huwf.2 c₀ hc₀]
      exact Nat.min_self _
  · rw [rewrite_zip_objects t item_id anns Hwf]
    exact List.perm_insertionSort pairLe _
  · show List.Forall₂ _
      ((updatedUnsorted t item_id anns).extras.map (fun c =>
        (c.1, (List.insertionSort pairLe
          ((updatedUnsorted t item_id anns).ids.zip c.2)).map Prod.snd)))
      (updatedUnsorted t item_id anns).extras
    have hR : ∀ c ∈ (updatedUnsorted t item_id anns).extras,
        ((fun c : String × List α =>
          (c.1, (List.insertionSort pairLe
            ((updatedUnsorted t item_id anns).ids.zip c.2)).map
              Prod.snd)) c).1 = c.1 ∧
        ((rewriteTable t item_id anns).ids.zip
          ((fun c : String × List α =>
            (c.1, (List.insertionSort pairLe
              ((updatedUnsorted t item_id anns).ids.zip c.2)).map
                Prod.snd)) c).2).Perm
          ((updatedUnsorted t item_id anns).ids.zip c.2) := by
      intro c hc
      refine ⟨rfl, ?_⟩
      show ((List.insertionSort natLe
          (updatedUnsorted t item_id anns).ids).zip
        ((List.insertionSort pairLe
          ((updatedUnsorted t item_id anns).ids.zip c.2)).map
            Prod.snd)).Perm _
      rw [sorted_zip_eq _ _ (huwf.2 c hc)]
      exact List.perm_insertionSort pairLe _
    exact forall₂_map_self _ hR

theorem opt_eq_some_getD {γ : Type} {o : Option γ} (d : γ)
    (h : o.isSome = true) : o = some (o.getD d) := by
  cases o with
  | none => cases h
  | some v => rfl

/-- C1: when the target id is found in a shard, the transaction stores for
that id exactly the caller's annotations after the pre-pass; pointwise,
every incoming URLE mask is stored as its compressed form, every empty
(all-zero) bbox is replaced by the mask's bounding rectangle, and — since
every incoming mask has at least one foreground pixel — every stored
annotation has a usable non-zero bbox. -/
theorem save_normalizes_and_stores {α : Type} [Inhabited α]
    {fs : List (String × Table α)} {item_id : String}
    {anns anns2 : List ObjectAnnotation} {file₀ : String} {t₀ : Table α}
    (Hm : mapOpt normalizeAnn anns = some anns2)
    (Hfg : ∀ a ∈ anns, annFg a = true)
    (Hkeys : (fs.map Prod.fst).Nodup)
    (Hdisj : fs.Pairwise (fun p q => ∀ s, s ∈ p.2.ids → s ∉ q.2.ids))
    (Hmem : (file₀, t₀) ∈ fs) (Hfound : item_id ∈ t₀.ids)
    (Hwf : t₀.wf) :
    save_item_annotations fs item_id anns =
      some (anns2, updateFS fs file₀ (rewriteTable t₀ item_id anns2),
        [FileEvent.write file₀ (rewriteTable t₀ item_id anns2)]) ∧
    lookupFS file₀ (updateFS fs file₀ (rewriteTable t₀ item_id anns2)) =
      some (rewriteTable t₀ item_id anns2) ∧
    (item_id, anns2) ∈
      (rewriteTable t₀ item_id anns2).ids.zip
        (rewriteTable t₀ item_id anns2).objects ∧
    List.Forall₂ (fun a a' =>
      (∀ u, a.mask = MaskVal.urle u →
        a'.mask = MaskVal.rle (CompressedRLE.from_urle u) ∧
        (∀ b, a.bbox = some b → b.coords = [(0 : ℚ), 0, 0, 0] →
          a'.bbox =
            some (BBox.from_mask (CompressedRLE.from_urle u).to_mask))) ∧
      (∃ b', a'.bbox = some b' ∧ b'.coords ≠ [(0 : ℚ), 0, 0, 0]))
      anns anns2 := by
  refine ⟨save_found Hm Hkeys Hdisj Hmem Hfound, ?_, ?_, ?_⟩
  · exact lookupFS_updateFS_self (List.mem_map_of_mem Prod.fst Hmem)
  · rw [rewrite_zip_objects t₀ item_id anns2 Hwf]
    exact (List.perm_insertionSort pairLe _).mem_iff.mpr
      (mem_zip_updated t₀ item_id anns2 Hwf)
  · apply forall₂_of_mem (mapOpt_forall₂ _ Hm)
    intro a a' ha h
    refine ⟨fun u hu => ⟨normalizeAnn_mask h hu,
      fun b hb hz => normalizeAnn_bbox_fill h hu hb hz⟩, ?_⟩
    exact normalizeAnn_usable (Hfg a ha) h

/-- C1 witness: a concrete two-shard store containing `img_7` and one
incoming annotation carrying a one-pixel URLE mask and an all-zero bbox. -/
theorem save_normalizes_and_stores_witness :
    mapOpt normalizeAnn [wMaskAnn] =
      some ((mapOpt normalizeAnn [wMaskAnn]).getD []) ∧
    (∀ a ∈ [wMaskAnn], annFg a = true) ∧
    ("shard_1.parquet", wTableB) ∈ wFS ∧ "img_7" ∈ wTableB.ids ∧
    save_item_annotations wFS "img_7" [wMaskAnn] =
      some ((mapOpt normalizeAnn [wMaskAnn]).getD [],
        updateFS wFS "shard_1.parquet"
          (rewriteTable wTableB "img_7"
            ((mapOpt normalizeAnn [wMaskAnn]).getD [])),
        [FileEvent.write "shard_1.parquet"
          (rewriteTable wTableB "img_7"
            ((mapOpt normalizeAnn [wMaskAnn]).getD []))]) :=
  ⟨opt_eq_some_getD [] (by decide), by decide, by decide, by decide,
    (save_normalizes_and_stores (opt_eq_some_getD [] (by decide))
      (by decide) (by decide) (by decide) (by decide) (by decide)
      (by decide)).1⟩

/-- C2: the claim asserts every shard rewrite goes through a temporary
file plus rename; refuted on a concrete successful run, whose whole trace
is a single direct write targeting the original shard file (the source
calls `pq.write_table(table, file)` on the shard path itself). -/
theorem rewrite_not_atomic_cex :
    (save_item_annotations wFS "img_7"
      ([] : List ObjectAnnotation)).isSome = true ∧
    ¬ writesOnlyTemp cexTrace (wFS.map Prod.fst) := by
  constructor
  · decide
  · decide

/-- C2 (amended): a successful rewrite emits exactly one event — a direct
in-place write of the rewritten table to the original shard path; no
temporary file or rename is involved, so the temp-plus-rename discipline
is violated by every successful rewrite. -/
theorem rewrite_direct_write {α : Type} [Inhabited α]
    {fs : List (String × Table α)} {item_id : String}
    {anns anns2 : List ObjectAnnotation} {file₀ : String} {t₀ : Table α}
    (Hm : mapOpt normalizeAnn anns = some anns2)
    (Hkeys : (fs.map Prod.fst).Nodup)
    (Hdisj : fs.Pairwise (fun p q => ∀ s, s ∈ p.2.ids → s ∉ q.2.ids))
    (Hmem : (file₀, t₀) ∈ fs) (Hfound : item_id ∈ t₀.ids) :
    ∃ fs2, save_item_annotations fs item_id anns =
        some (anns2, fs2,
          [FileEvent.write file₀ (rewriteTable t₀ item_id anns2)]) ∧
      file₀ ∈ fs.map Prod.fst ∧
      ¬ writesOnlyTemp
        [FileEvent.write file₀ (rewriteTable t₀ item_id anns2)]
        (fs.map Prod.fst) := by
  refine ⟨updateFS fs file₀ (rewriteTable t₀ item_id anns2),
    save_found Hm Hkeys Hdisj Hmem Hfound,
    List.mem_map_of_mem Prod.fst Hmem, ?_⟩
  intro h
  apply h (FileEvent.write file₀ (rewriteTable t₀ item_id anns2))
    (List.mem_cons_self _ _)
  show file₀ ∈ fs.map Prod.fst
  exact List.mem_map_of_mem Prod.fst Hmem

/-- C2 witness: the amended statement applied to the concrete store. -/
theorem rewrite_direct_write_witness :
    ∃ fs2, save_item_annotations wFS "img_7" ([] : List ObjectAnnotation) =
        some (([] : List ObjectAnnotation), fs2,
          [FileEvent.write "shard_1.parquet"
            (rewriteTable wTableB "img_7" [])]) ∧
      "shard_1.parquet" ∈ wFS.map Prod.fst ∧
      ¬ writesOnlyTemp
        [FileEvent.write "shard_1.parquet" (rewriteTable wTableB "img_7" [])]
        (wFS.map Prod.fst) :=
  rewrite_direct_write (by decide) (by decide) (by decide) (by decide)
    (by decide)

/-- C3 witness: the per-shard rewrite theorem applied to a concrete
unsorted two-row table containing the target id. -/
theorem rewrite_sorted_consistent_witness :
    wTableC.wf ∧ wTableC.ids.Nodup ∧ "img_2" ∈ wTableC.ids ∧
      (rewriteTable wTableC "img_2" []).ids.Pairwise natLe :=
  ⟨by decide, by decide, by decide,
    (rewrite_sorted_consistent wTableC "img_2" [] (by decide) (by decide)
      (by decide)).1⟩

/-- C4: over a shard set with unique item ids, at most one shard file is
rewritten — exactly the shard containing the target id, whose new content
is the rewritten table, while the content stored under every other
filename is unchanged; when the id is absent from every shard nothing is
written and the filesystem is returned unchanged. -/
theorem save_touches_one_shard {α : Type} [Inhabited α]
    (fs : List (String × Table α)) (item_id : String)
    (anns anns2 : List ObjectAnnotation)
    (Hm : mapOpt normalizeAnn anns = some anns2)
    (Hkeys : (fs.map Prod.fst).Nodup)
    (Hdisj : fs.Pairwise (fun p q => ∀ s, s ∈ p.2.ids → s ∉ q.2.ids)) :
    (∀ file₀ t₀, (file₀, t₀) ∈ fs → item_id ∈ t₀.ids →
      save_item_annotations fs item_id anns =
        some (anns2, updateFS fs file₀ (rewriteTable t₀ item_id anns2),
          [FileEvent.write file₀ (rewriteTable t₀ item_id anns2)]) ∧
      lookupFS file₀
          (updateFS fs file₀ (rewriteTable t₀ item_id anns2)) =
        some (rewriteTable t₀ item_id anns2) ∧
      (∀ g, g ≠ file₀ →
        lookupFS g (updateFS fs file₀ (rewriteTable t₀ item_id anns2)) =
          lookupFS g fs)) ∧
    ((∀ p ∈ fs, item_id ∉ p.2.ids) →
      save_item_annotations fs item_id anns = some (anns2, fs, [])) := by
  constructor
  · intro file₀ t₀ hmem hfound
    exact ⟨save_found Hm Hkeys Hdisj hmem hfound,
      lookupFS_updateFS_self (List.mem_map_of_mem Prod.fst hmem),
      fun g hg => lookupFS_updateFS_ne hg fs⟩
  · intro habs
    exact save_not_found Hm habs

/-- C4 witness: the single-write theorem applied to the concrete
two-shard store. -/
theorem save_touches_one_shard_witness :
    ("shard_1.parquet", wTableB) ∈ wFS ∧ "img_7" ∈ wTableB.ids ∧
    save_item_annotations wFS "img_7" ([] : List ObjectAnnotation) =
      some (([] : List ObjectAnnotation),
        updateFS wFS "shard_1.parquet" (rewriteTable wTableB "img_7" []),
        [FileEvent.write "shard_1.parquet"
          (rewriteTable wTableB "img_7" [])]) :=
  ⟨by decide, by decide,
    ((save_touches_one_shard wFS "img_7" [] [] (by decide) (by decide)
      (by decide)).1 "shard_1.parquet" wTableB (by decide) (by decide)).1⟩

/-- C10: the pre-pass mutates the caller's annotation list before any file
access: even when the id is found in no shard and nothing is written, the
returned list is the normalized one — pointwise, the mask field is
replaced by its compressed form and an all-zero bbox is replaced by the
mask-derived bbox — while the filesystem is unchanged and the event trace
is empty. -/
theorem save_mutates_annotations {α : Type} [Inhabited α]
    (fs : List (String × Table α)) (item_id : String)
    (anns anns2 : List ObjectAnnotation)
    (Hm : mapOpt normalizeAnn anns = some anns2)
    (Habs : ∀ p ∈ fs, item_id ∉ p.2.ids) :
    save_item_annotations fs item_id anns = some (anns2, fs, []) ∧
    List.Forall₂ (fun a a' => normalizeAnn a = some a') anns anns2 ∧
    (∀ a a', normalizeAnn a = some a' → ∀ u, a.mask = MaskVal.urle u →
      a'.mask = MaskVal.rle (CompressedRLE.from_urle u) ∧
      (∀ b, a.bbox = some b → b.coords = [(0 : ℚ), 0, 0, 0] →
        a'.bbox =
          some (BBox.from_mask (CompressedRLE.from_urle u).to_mask))) :=
  ⟨save_not_found Hm Habs, mapOpt_forall₂ _ Hm,
    fun _ _ h u hu => ⟨normalizeAnn_mask h hu,
      fun b hb hz => normalizeAnn_bbox_fill h hu hb hz⟩⟩

/-- C10 witness: an id absent from both shards still yields the mutated
annotation list with no write. -/
theorem save_mutates_annotations_witness :
    (∀ p ∈ wFS, "img_99" ∉ p.2.ids) ∧
    save_item_annotations wFS "img_99" [wMaskAnn] =
      some ((mapOpt normalizeAnn [wMaskAnn]).getD [], wFS, []) :=
  ⟨by decide,
    (save_mutates_annotations wFS "img_99" [wMaskAnn]
      ((mapOpt normalizeAnn [wMaskAnn]).getD [])
      (opt_eq_some_getD [] (by decide)) (by decide)).1⟩

/-! ### Converter lemmas -/

theorem addKeys_mem (k : String) :
    ∀ (ks acc : List String), k ∈ addKeys acc ks ↔ k ∈ acc ∨ k ∈ ks := by
  intro ks
  induction ks with
  | nil => intro acc; simp [addKeys]
  | cons k' ks ih =>
    intro acc
    show k ∈ addKeys (if k' ∈ acc then acc else acc ++ [k']) ks ↔ _
    rw [ih]
    by_cases hk : k' ∈ acc
    · rw [if_pos hk]
      constructor
      · rintro (h | h)
        · exact Or.inl h
        · exact Or.inr (List.mem_cons_of_mem _ h)
      · rintro (h | h)
        · exact Or.inl h
        · rcases List.mem_cons.mp h with h | h
          · exact Or.inl (h ▸ hk)
          · exact Or.inr h
    · rw [if_neg hk]
      simp only [List.mem_append, List.mem_singleton, List.mem_cons]
      tauto

theorem inferKeys_mem (k : String) (vs : List PyVal) :
    k ∈ inferKeys vs ↔ ∃ v ∈ vs, k ∈ dictKeys v := by
  have hgen : ∀ (l : List PyVal) (acc : List String),
      k ∈ l.foldl (fun a v => addKeys a (dictKeys v)) acc ↔
        k ∈ acc ∨ ∃ v ∈ l, k ∈ dictKeys v := by
    intro l
    induction l with
    | nil => intro acc; simp
    | cons v l ih =>
      intro acc
      rw [List.foldl_cons, ih, addKeys_mem]
      simp only [List.mem_cons]
      constructor
      · rintro ((h | h) | ⟨w, hw, hkw⟩)
        · exact Or.inl h
        · exact Or.inr ⟨v, Or.inl rfl, h⟩
        · exact Or.inr ⟨w, Or.inr hw, hkw⟩
      · rintro (h | ⟨w, (hw | hw), hkw⟩)
        · exact Or.inl (Or.inl h)
        · exact Or.inl (Or.inr (hw ▸ hkw))
        · exact Or.inr ⟨w, hw, hkw⟩
  have h := hgen vs []
  unfold inferKeys
  rw [h]
  simp

theorem dictKeys_intRecord (r : List (String × ℤ)) :
    dictKeys (intRecord r) = r.map Prod.fst := by
  show List.map Prod.fst (r.map (fun p => (p.1, PyVal.vint p.2))) =
    r.map Prod.fst
  rw [List.map_map]
  rfl

theorem lookupVal_intRecord (n : String) :
    ∀ (r : List (String × ℤ)),
      lookupVal n (r.map (fun p => (p.1, PyVal.vint p.2))) =
        Option.map PyVal.vint (lookupZ n r) := by
  intro r
  induction r with
  | nil => rfl
  | cons p rest ih =>
    show (if p.1 = n then some (PyVal.vint p.2) else _) = _
    unfold lookupZ
    by_cases hp : p.1 = n
    · rw [if_pos hp, if_pos hp]
      rfl
    · rw [if_neg hp, if_neg hp]
      exact ih

theorem projectField_intRecord (n : String) (rows : List (List (String × ℤ))) :
    projectField n (rows.map intRecord) = rows.map (fun r => intCell n r) := by
  unfold projectField
  rw [List.map_map]
  apply List.map_congr_left
  intro r _
  show (lookupVal n (r.map (fun p => (p.1, PyVal.vint p.2)))).getD
    PyVal.vnone = intCell n r
  rw [lookupVal_intRecord]
  unfold intCell
  cases lookupZ n r <;> rfl

theorem mapExcept_ok_of :
    ∀ {l : List PyVal}, (∀ v ∈ l, convPrimInt v = Except.ok v) →
      mapExcept convPrimInt l = Except.ok l := by
  intro l
  induction l with
  | nil => intro _; rfl
  | cons v vs ih =>
    intro h
    unfold mapExcept
    rw [h v (List.mem_cons_self _ _),
      ih (fun w hw => h w (List.mem_cons_of_mem _ hw))]

theorem convPrimInt_intCell (n : String) (r : List (String × ℤ)) :
    convPrimInt (intCell n r) = Except.ok (intCell n r) := by
  unfold intCell
  cases lookupZ n r <;> rfl

theorem convert_int_col (n : String) (rows : List (List (String × ℤ))) :
    convert_field PaType.int64 (projectField n (rows.map intRecord)) =
      Except.ok (rows.map (fun r => intCell n r)) := by
  show mapExcept convPrimInt _ = _
  rw [projectField_intRecord]
  apply mapExcept_ok_of
  intro v hv
  obtain ⟨r, -, hveq⟩ := List.mem_map.mp hv
  rw [← hveq]
  exact convPrimInt_intCell n r

theorem convertFields_int (rows : List (List (String × ℤ))) :
    ∀ (ns : List String),
      (∀ n ∈ ns, n ∈ inferKeys (rows.map intRecord)) →
      convertFields (intFields ns) (inferKeys (rows.map intRecord))
          (rows.map intRecord) =
        Except.ok (ns.map (fun n => (n, rows.map (fun r => intCell n r)))) := by
  intro ns
  induction ns with
  | nil => intro _; rfl
  | cons n ns ih =>
    intro hcov
    show convertFields (PaFields.cons n PaType.int64 (intFields ns)) _ _ = _
    unfold convertFields
    rw [if_pos (hcov n (List.mem_cons_self _ _))]
    rw [convert_int_col n rows]
    rw [ih (fun m hm => hcov m (List.mem_cons_of_mem _ hm))]
    rfl

theorem getD_map_cons {γ : Type} (f : γ → PyVal) (r : γ) (rest : List γ)
    (i : ℕ) :
    ((r :: rest).map f).getD (i + 1) PyVal.vnone =
      (rest.map f).getD i PyVal.vnone := rfl

theorem structRows_transpose {γ : Type} (cell : String → γ → PyVal) :
    ∀ (rows : List γ) (ns : List String),
      structRows (ns.map (fun n => (n, rows.map (cell n)))) rows.length =
        rows.map (fun r => PyVal.vdict (ns.map (fun n => (n, cell n r)))) := by
  intro rows
  induction rows with
  | nil => intro ns; rfl
  | cons r rest ih =>
    intro ns
    unfold structRows
    rw [List.length_cons, List.range_succ_eq_map, List.map_cons]
    congr 1
    · show PyVal.vdict ((ns.map (fun n => (n, (r :: rest).map (cell n)))).map
        (fun c => (c.1, c.2.getD 0 PyVal.vnone))) = _
      rw [List.map_map]
      congr 1
    · rw [List.map_map]
      have hih := ih ns
      unfold structRows at hih
      rw [← hih]
      apply List.map_congr_left
      intro i _
      show PyVal.vdict ((ns.map (fun n => (n, (r :: rest).map (cell n)))).map
        (fun c => (c.1, c.2.getD (i + 1) PyVal.vnone))) =
        PyVal.vdict ((ns.map (fun n => (n, rest.map (cell n)))).map
          (fun c => (c.1, c.2.getD i PyVal.vnone)))
      rw [List.map_map, List.map_map]
      congr 1

/-- C7: the claim states that a field declared in the target struct but
not present in the input values maps to null rather than raising an
error; refuted: when the field name appears in no input record, pyarrow's
`StructArray.field` lookup raises `KeyError` and the conversion fails. -/
theorem convert_missing_field_cex :
    convert_field (PaType.structT (PaFields.cons "a" PaType.int64
        (PaFields.cons "b" PaType.int64 PaFields.nil)))
        [PyVal.vdict [("a", PyVal.vint 1)]] =
      Except.error (ConvErr.keyError "b") := rfl

/-- C7 (amended): the struct branch converts each declared field's
projected column independently and reassembles rows by field name, and
the claim's null-fill holds exactly at primitive-typed fields: for a
struct of `int64` fields, a record lacking a declared field receives
null — provided the field's name appears in at least one input record (a
name appearing in no record raises a `KeyError` instead, see the
counterexample).  At nested-typed fields the missing cell is not null
either: because the reassembly carries no validity mask, a record
lacking a struct-typed field is rebuilt as a struct of nulls and a
record lacking a list-typed field as an empty list, shown here at
concrete nested shapes. -/
theorem convert_struct_missing_null (ns : List String)
    (rows : List (List (String × ℤ)))
    (Hcov : ∀ n ∈ ns, ∃ r ∈ rows, n ∈ r.map Prod.fst) :
    (convert_field (PaType.structT (intFields ns)) (rows.map intRecord) =
      Except.ok (rows.map (fun r =>
        PyVal.vdict (ns.map (fun n => (n, intCell n r)))))) ∧
    (convert_field
        (PaType.structT (PaFields.cons "a"
          (PaType.structT (PaFields.cons "x" PaType.int64 PaFields.nil))
          PaFields.nil))
        [PyVal.vdict [("a", PyVal.vdict [("x", PyVal.vint 1)])],
         PyVal.vdict []] =
      Except.ok
        [PyVal.vdict [("a", PyVal.vdict [("x", PyVal.vint 1)])],
         PyVal.vdict [("a", PyVal.vdict [("x", PyVal.vnone)])]]) ∧
    (convert_field
        (PaType.structT (PaFields.cons "a" (PaType.listT PaType.int64)
          PaFields.nil))
        [PyVal.vdict [("a", PyVal.vlist [PyVal.vint 1])],
         PyVal.vdict []] =
      Except.ok
        [PyVal.vdict [("a", PyVal.vlist [PyVal.vint 1])],
         PyVal.vdict [("a", PyVal.vlist [])]]) := by
  refine ⟨?_, rfl, rfl⟩
  cases rows with
  | nil =>
    cases ns with
    | nil => rfl
    | cons n ns =>
      obtain ⟨r, hr, -⟩ := Hcov n (List.mem_cons_self _ _)
      cases hr
  | cons r₀ rest =>
    have hcov' : ∀ n ∈ ns, n ∈ inferKeys ((r₀ :: rest).map intRecord) := by
      intro n hn
      obtain ⟨r, hr, hnr⟩ := Hcov n hn
      apply (inferKeys_mem n _).mpr
      exact ⟨intRecord r, List.mem_map_of_mem intRecord hr,
        by rwa [dictKeys_intRecord]⟩
    have hnone : allNone ((r₀ :: rest).map intRecord) = false := by rfl
    show convert_field (PaType.structT (intFields ns)) _ = _
    unfold convert_field
    rw [hnone]
    simp only [Bool.false_eq_true, if_false]
    rw [convertFields_int (r₀ :: rest) ns hcov']
    have hlen : ((r₀ :: rest).map intRecord).length = (r₀ :: rest).length :=
      List.length_map _ _
    show Except.ok (structRows
      (ns.map (fun n => (n, (r₀ :: rest).map (fun r => intCell n r))))
      ((List.map intRecord (r₀ :: rest)).length)) = _
    rw [hlen]
    rw [structRows_transpose (fun n r => intCell n r) (r₀ :: rest) ns]

/-- C7 witness: two records, each lacking one of the two declared fields;
both fields appear somewhere, so the conversion succeeds and each missing
cell maps to null. -/
theorem convert_struct_missing_null_witness :
    (∀ n ∈ wNs, ∃ r ∈ wRows, n ∈ r.map Prod.fst) ∧
    convert_field (PaType.structT (intFields wNs)) (wRows.map intRecord) =
      Except.ok (wRows.map (fun r =>
        PyVal.vdict (wNs.map (fun n => (n, intCell n r))))) :=
  ⟨by decide, (convert_struct_missing_null wNs wRows (by decide)).1⟩
